import Mathlib

/-!
Verification of the heuristic receipt-extraction core of this repository
(`src/lib/imagePreprocessing.ts`, heuristic extraction part) and of the
repair pass `validateAndFixFields` (`src/app/api/upload-receipt/route.ts`).

The TypeScript code is shallowly embedded:

* JS strings are Lean `String`s / `List Char`; JS numbers are exact rationals
  (`ℚ`); absent values (`null` / `undefined`) are `Option`s; a thrown JS
  exception is an `Except.error`.
* The regular expressions of the source are embedded as abstract syntax trees
  (`RE`) together with a backtracking matcher `mtch` that follows the
  ECMAScript semantics: ordered alternation, greedy quantifiers with the
  empty-iteration stop rule, ASCII word boundaries, canonicalising
  case-insensitive mode, leftmost search, and `lastIndex`-style global scans.
  The matcher takes an explicit fuel argument (first, structurally
  decreasing), so that every definition is a plain structural recursion the
  kernel can evaluate; the fuel passed by the callers over-approximates the
  maximal call depth, which is bounded because every quantified subexpression
  of the source patterns consumes at least one character per iteration (and
  an empty iteration stops the loop, as in ECMAScript).
* The source file stores its currency symbols in mojibake (the UTF-8 bytes of
  the euro, pound, yen and rupee signs decoded as Latin-1; the euro sign, for
  example, appears as the three characters "â", U+201A, U+00AC). The
  embedding reproduces exactly those characters, because that is what the JS
  engine sees when it loads the file.

Every definition mirrors one function or constant of the source and keeps its
name where possible. The claim theorems are at the end of the file.
-/

set_option maxRecDepth 100000

namespace ReceiptVerify

/-! ### JS character and string primitives -/

/-- ECMAScript word character, as used by the `\b` assertion: `[A-Za-z0-9_]`. -/
def isWordCharJS (c : Char) : Bool :=
  ('A' ≤ c && c ≤ 'Z') || ('a' ≤ c && c ≤ 'z') || ('0' ≤ c && c ≤ '9') || c == '_'

/-- ECMAScript whitespace (`\s`, `String.prototype.trim`): tab, LF, VT, FF,
CR, space, NBSP, Ogham space mark, the U+2000 spacing block, LS, PS, NNBSP,
MMSP, ideographic space and the byte-order mark. -/
def jsIsSpace (c : Char) : Bool :=
  c == ' ' || c == '\t' || c == '\n' || c == '\u000b' || c == '\u000c' || c == '\r' ||
  c == '\u00a0' || c == '\u1680' ||
  ('\u2000' ≤ c && c ≤ '\u200a') ||
  c == '\u2028' || c == '\u2029' || c == '\u202f' || c == '\u205f' ||
  c == '\u3000' || c == '\ufeff'

/-- Lower-case counterpart of a character on the fragment relevant to this
code base: ASCII and the Latin-1 letters (JS `toLowerCase` restricted to the
characters that occur in the source and its inputs of interest). -/
def toLowerJS (c : Char) : Char :=
  if 'A' ≤ c && c ≤ 'Z' then Char.ofNat (c.toNat + 32)
  else if 'À' ≤ c && c ≤ 'Þ' && !(c == '×') then Char.ofNat (c.toNat + 32)
  else c

/-- Upper-case counterpart of a character (ASCII and Latin-1; `ß` is kept
unchanged, as ECMAScript regex canonicalisation prescribes for characters
whose upper-casing expands to several characters). -/
def toUpperJS (c : Char) : Char :=
  if 'a' ≤ c && c ≤ 'z' then Char.ofNat (c.toNat - 32)
  else if 'à' ≤ c && c ≤ 'þ' && !(c == '÷') && !(c == 'ß') then Char.ofNat (c.toNat - 32)
  else if c == 'ÿ' then 'Ÿ'
  else if c == 'µ' then 'Μ'
  else c

/-- ECMAScript regex canonicalisation for the `i` flag (ES `Canonicalize`):
upper-case the character, keeping it unchanged when upper-casing would expand
it. -/
def canonJS (c : Char) : Char := toUpperJS c

/-- The other-case variant of a character, for `i`-mode range membership. -/
def caseFlip (c : Char) : Char :=
  if !(toUpperJS c == c) then toUpperJS c else toLowerJS c

def toLowerStr (s : List Char) : List Char := s.map toLowerJS

def toUpperStr (s : List Char) : List Char := s.map toUpperJS

/-- `String.prototype.trim`. -/
def jsTrimL (s : List Char) : List Char :=
  ((s.dropWhile jsIsSpace).reverse.dropWhile jsIsSpace).reverse

/-- Does `pat` occur as a contiguous substring of `s`
(`String.prototype.includes`)? -/
def containsSub (s pat : List Char) : Bool :=
  match s with
  | [] => pat.isEmpty
  | _ :: tl => pat.isPrefixOf s || containsSub tl pat

/-- `String.prototype.substring(a, b)` (clamps to the string, swaps the ends
when `a > b`). -/
def jsSubstring (s : List Char) (a b : Nat) : List Char :=
  let a' := min a s.length
  let b' := min b s.length
  (s.drop (min a' b')).take (max a' b' - min a' b')

def digitsPrefix (s : List Char) : List Char := s.takeWhile Char.isDigit

def digitsToNat (ds : List Char) : Nat :=
  ds.foldl (fun acc c => acc * 10 + (c.toNat - 48)) 0

/-- `parseInt(s, 10)`: skip whitespace, optional sign, read leading digits;
`none` models `NaN`. -/
def jsParseInt (s : List Char) : Option Int :=
  let t := s.dropWhile jsIsSpace
  match t with
  | '+' :: r =>
    let d := digitsPrefix r
    if d.isEmpty then none else some (digitsToNat d)
  | '-' :: r =>
    let d := digitsPrefix r
    if d.isEmpty then none else some (-(digitsToNat d : Int))
  | _ =>
    let d := digitsPrefix t
    if d.isEmpty then none else some (digitsToNat d)

/-- Fractional digits `ds` read as the rational `0.ds`. -/
def fracOfDigits (ds : List Char) : ℚ :=
  (digitsToNat ds : ℚ) / ((10 : ℚ) ^ ds.length)

/-- `parseFloat(s)`: skip whitespace, optional sign, then the longest prefix
of the form `digits`, `digits.digits` or `.digits` (no input of this program
carries an exponent); `none` models `NaN`. -/
def jsParseFloatCore (t : List Char) : Option ℚ :=
  let intPart := digitsPrefix t
  let rest := t.drop intPart.length
  match rest with
  | '.' :: r =>
    let frac := digitsPrefix r
    if intPart.isEmpty && frac.isEmpty then none
    else some ((digitsToNat intPart : ℚ) + fracOfDigits frac)
  | _ =>
    if intPart.isEmpty then none else some (digitsToNat intPart)

def jsParseFloat (s : List Char) : Option ℚ :=
  let t := s.dropWhile jsIsSpace
  match t with
  | '+' :: r => jsParseFloatCore r
  | '-' :: r => (jsParseFloatCore r).map (fun q => -q)
  | _ => jsParseFloatCore t

/-- `String.prototype.padStart(2, "0")`. -/
def padStart2 (s : List Char) : List Char :=
  if s.length ≥ 2 then s else if s.length == 1 then '0' :: s else ['0', '0']

/-- First occurrence of the literal `pat` removed and replaced by nothing:
`String.prototype.replace(pat, "")` with a plain string argument. -/
def removeFirstSub (s pat : List Char) : List Char :=
  match s with
  | [] => if pat.isEmpty then [] else []
  | c :: tl =>
    if pat.isPrefixOf s then s.drop pat.length
    else c :: removeFirstSub tl pat

/-! ### ECMAScript regular expressions: syntax trees and backtracking matcher -/

/-- One atom of a character class. -/
inductive ClsAtom where
  | ch (c : Char)
  | rng (lo hi : Char)
  | digit
  | space
  | word
deriving DecidableEq, Repr

/-- Embedded regular expressions. `rep a min max` is a greedy quantifier
(`max = none` means unbounded); `grp` is a numbered capturing group; `wb` is
the `\\b` assertion; `bos`/`eos` are `^`/`$` (no `m` flag in the source). -/
inductive RE where
  | eps
  | cls (neg : Bool) (atoms : List ClsAtom)
  | seq (a b : RE)
  | alt (a b : RE)
  | rep (a : RE) (lo : Nat) (hi : Option Nat)
  | grp (idx : Nat) (a : RE)
  | wb
  | bos
  | eos
deriving DecidableEq, Repr

/-- Does class atom `a` match character `c` (ES `CharacterSetMatcher`: with
the `i` flag both the input character and the class members are
canonicalised; for a range this amounts to also testing the other-case
variant of the input)? -/
def atomMatch (ci : Bool) (a : ClsAtom) (c : Char) : Bool :=
  match a with
  | .ch x => c == x || (ci && canonJS c == canonJS x)
  | .rng lo hi =>
    (lo ≤ c && c ≤ hi) || (ci && lo ≤ caseFlip c && caseFlip c ≤ hi)
  | .digit => '0' ≤ c && c ≤ '9'
  | .space => jsIsSpace c
  | .word => isWordCharJS c

def clsMatch (ci : Bool) (neg : Bool) (atoms : List ClsAtom) (c : Char) : Bool :=
  let hit := atoms.any (fun a => atomMatch ci a c)
  if neg then !hit else hit

/-- Matcher state: current position, remaining input, the character before
the position (for `\\b`), and the captures recorded so far (group index,
start, end; the most recent entry for a group wins). -/
structure MSt where
  pos : Nat
  rest : List Char
  prev : Option Char
  caps : List (Nat × Nat × Nat)
deriving Repr

def isWordOpt : Option Char → Bool
  | none => false
  | some c => isWordCharJS c

def atBoundary (st : MSt) : Bool :=
  isWordOpt st.prev != (match st.rest with
    | [] => false
    | c :: _ => isWordCharJS c)

def decOpt : Option Nat → Option Nat
  | none => none
  | some n => some (n - 1)

/-- The ECMAScript backtracking matcher, in continuation-passing style.
`mtch ci fuel re st k` tries to match `re` at `st` and calls `k` on every
candidate continuation state, in the order prescribed by ES: ordered
alternation, greedy repetition (iterate first, stop when the minimum is
satisfied and the body matched the empty string). The fuel only bounds the
call depth so that the recursion is structural; all callers pass enough fuel
for their patterns (see `reFuel`). -/
def mtch (ci : Bool) : Nat → RE → MSt → (MSt → Option MSt) → Option MSt
  | 0, _, _, _ => none
  | Nat.succ fuel, re, st, k =>
    match re with
    | .eps => k st
    | .cls neg atoms =>
      match st.rest with
      | [] => none
      | c :: cs =>
        if clsMatch ci neg atoms c then k ⟨st.pos + 1, cs, some c, st.caps⟩ else none
    | .seq a b => mtch ci fuel a st (fun st2 => mtch ci fuel b st2 k)
    | .alt a b =>
      match mtch ci fuel a st k with
      | some r => some r
      | none => mtch ci fuel b st k
    | .grp i a =>
      mtch ci fuel a st (fun st2 => k { st2 with caps := (i, st.pos, st2.pos) :: st2.caps })
    | .wb => if atBoundary st then k st else none
    | .bos => if st.pos == 0 then k st else none
    | .eos => if st.rest.isEmpty then k st else none
    | .rep a lo hi =>
      match hi with
      | some 0 => k st
      | _ =>
        let iter := mtch ci fuel a st (fun st2 =>
          if lo == 0 && st2.pos == st.pos then none
          else mtch ci fuel (.rep a (lo - 1) (decOpt hi)) st2 k)
        match lo with
        | 0 =>
          match iter with
          | some r => some r
          | none => k st
        | _ + 1 => iter

/-- Structural size of a pattern, used only to compute a sufficient fuel. -/
def reSize : RE → Nat
  | .eps => 1
  | .cls _ _ => 1
  | .seq a b => reSize a + reSize b + 1
  | .alt a b => reSize a + reSize b + 1
  | .rep a _ _ => reSize a + 1
  | .grp _ a => reSize a + 1
  | .wb => 1
  | .bos => 1
  | .eos => 1

/-- Fuel that over-approximates the matcher call depth for pattern `re` on a
subject with `n` remaining characters. -/
def reFuel (re : RE) (n : Nat) : Nat :=
  (reSize re + 2) * (n + reSize re + 4)

/-- A regex match: start, end, and recorded captures. -/
structure RxMatch where
  ms : Nat
  me : Nat
  caps : List (Nat × Nat × Nat)
deriving Repr

/-- Try to match `re` exactly at state `(pos, rest, prev)`. -/
def matchAt (ci : Bool) (re : RE) (pos : Nat) (rest : List Char) (prev : Option Char) :
    Option RxMatch :=
  match mtch ci (reFuel re rest.length) re ⟨pos, rest, prev, []⟩ some with
  | some st => some ⟨pos, st.pos, st.caps⟩
  | none => none

/-- Leftmost match at position `≥ pos` (ES `RegExpBuiltinExec` search loop). -/
def execFromAux (ci : Bool) (re : RE) :
    Nat → Nat → List Char → Option Char → Option RxMatch
  | 0, _, _, _ => none
  | Nat.succ fuel, pos, rest, prev =>
    match matchAt ci re pos rest prev with
    | some m => some m
    | none =>
      match rest with
      | [] => none
      | c :: cs => execFromAux ci re fuel (pos + 1) cs (some c)

def execFrom (ci : Bool) (re : RE) (pos : Nat) (rest : List Char) (prev : Option Char) :
    Option RxMatch :=
  execFromAux ci re (rest.length + 1) pos rest prev

/-- Advance a scanning state `(pos, rest, prev)` by `n` characters. -/
def advanceSt : Nat → Nat × List Char × Option Char → Nat × List Char × Option Char
  | 0, s => s
  | Nat.succ n, (pos, rest, prev) =>
    match rest with
    | [] => (pos, rest, prev)
    | c :: cs => advanceSt n (pos + 1, cs, some c)

/-- All matches of a global (`g`) regex, with the ES `lastIndex` protocol:
continue after each match, advancing one extra character after an empty
match. -/
def matchAllAux (ci : Bool) (re : RE) :
    Nat → Nat → List Char → Option Char → List RxMatch
  | 0, _, _, _ => []
  | Nat.succ fuel, pos, rest, prev =>
    match execFrom ci re pos rest prev with
    | none => []
    | some m =>
      let step := if m.me == m.ms then m.me + 1 - pos else m.me - pos
      let next := advanceSt step (pos, rest, prev)
      m :: matchAllAux ci re fuel next.1 next.2.1 next.2.2

def matchAll (ci : Bool) (re : RE) (s : List Char) : List RxMatch :=
  matchAllAux ci re (s.length + 2) 0 s none

/-- First match of a non-global regex (`String.prototype.match` without `g`,
`RegExp.prototype.test`). -/
def matchFirst (ci : Bool) (re : RE) (s : List Char) : Option RxMatch :=
  execFrom ci re 0 s none

def reTest (ci : Bool) (re : RE) (s : List Char) : Bool :=
  (matchFirst ci re s).isSome

/-- The full text of a match. -/
def matchStr (text : List Char) (m : RxMatch) : List Char :=
  jsSubstring text m.ms m.me

/-- Capture group `i` of a match (`none` models `undefined`). -/
def capStr (text : List Char) (m : RxMatch) (i : Nat) : Option (List Char) :=
  match m.caps.find? (fun e => e.1 == i) with
  | some (_, s, e) => some (jsSubstring text s e)
  | none => none

/-- `match[i] || ""` -- the JS idiom mapping both `undefined` and the empty
capture to the empty string. -/
def capOr (text : List Char) (m : RxMatch) (i : Nat) : List Char :=
  match capStr text m i with
  | some s => s
  | none => []

/-- `String.prototype.replace(re, repl)` with a global regex and a literal
replacement string (ES: splice every match, advance an extra character after
an empty match). -/
def replaceAllAux (ci : Bool) (re : RE) (repl : List Char) :
    Nat → Nat → List Char → Option Char → List Char
  | 0, _, rest, _ => rest
  | Nat.succ fuel, pos, rest, prev =>
    match execFrom ci re pos rest prev with
    | none => rest
    | some m =>
      let keep := rest.take (m.ms - pos)
      if m.me == m.ms then
        match (advanceSt (m.ms - pos) (pos, rest, prev)).2.1 with
        | [] => keep ++ repl
        | c :: cs =>
          keep ++ repl ++ [c].append (replaceAllAux ci re repl fuel (m.ms + 1) cs (some c))
      else
        let next := advanceSt (m.me - pos) (pos, rest, prev)
        keep ++ repl ++ replaceAllAux ci re repl fuel next.1 next.2.1 next.2.2

def replaceAll (ci : Bool) (re : RE) (repl : List Char) (s : List Char) : List Char :=
  replaceAllAux ci re repl (s.length + 2) 0 s none

/-- `String.prototype.split(re)` for the one pattern the source splits on
(`/[.,]/` -- a single-character class, so splitting at each matching
character is the ES behaviour). -/
def splitCls (atoms : List ClsAtom) (s : List Char) : List (List Char) :=
  match s with
  | [] => [[]]
  | c :: tl =>
    let r := splitCls atoms tl
    if clsMatch false false atoms c then [] :: r
    else
      match r with
      | [] => [[c]]
      | h :: t => (c :: h) :: t

/-! ### Smart constructors for transcribing the source regexes -/

def rcat : List RE → RE
  | [] => .eps
  | [r] => r
  | r :: rs => .seq r (rcat rs)

def ralt : List RE → RE
  | [] => .eps
  | [r] => r
  | r :: rs => .alt r (ralt rs)

/-- A literal string, one single-character class per character. -/
def lit (s : String) : RE := rcat (s.data.map (fun c => RE.cls false [.ch c]))

/-- Class atoms listing each character of `s`. -/
def cc (s : String) : List ClsAtom := s.data.map ClsAtom.ch

def dAtom : ClsAtom := ClsAtom.rng '0' '9'

/-- `[0-9]` (and `\d`, which is the same set in ECMAScript). -/
def dig : RE := RE.cls false [dAtom]

/-- `[.,]` -/
def sep : RE := RE.cls false (cc ".,")

/-- `\s*` and `\s+` -/
def wsStar : RE := RE.rep (RE.cls false [ClsAtom.space]) 0 none

def wsPlus : RE := RE.rep (RE.cls false [ClsAtom.space]) 1 none

def q01 (r : RE) : RE := RE.rep r 0 (some 1)

def star (r : RE) : RE := RE.rep r 0 none

def plus (r : RE) : RE := RE.rep r 1 none

def repn (r : RE) (a b : Nat) : RE := RE.rep r a (some b)

/-! ### The constants of `src/lib/imagePreprocessing.ts` -/

/-- `CURRENCY_SYMBOLS`: the source file is mojibake-encoded, so the euro,
pound, yen and rupee entries are the two/three Latin-1 characters shown
below (written with escapes): for example the euro entry is the string
`U+00E2 U+201A U+00AC`. -/
def CURRENCY_SYMBOLS : List String :=
  ["$", "\u00e2\u201a\u00ac", "\u00c2\u00a3", "\u00c2\u00a5", "\u00e2\u201a\u00b9",
   "Bs", "USD", "EUR", "GBP", "JPY", "INR", "BOB"]

/-- The characters of the class `[$â‚¬Â£Â¥â‚¹Bs]` as it appears (mojibake)
in every amount pattern of the source. -/
def curClsChars : String :=
  "$\u00e2\u201a\u00ac\u00c2\u00a3\u00c2\u00a5\u00e2\u201a\u00b9Bs"

def curCls : List ClsAtom := cc curClsChars

/-- `MONTH_NAMES` -/
def MONTH_NAMES_en : List String :=
  ["january", "february", "march", "april", "may", "june",
   "july", "august", "september", "october", "november", "december"]

def MONTH_NAMES_es : List String :=
  ["enero", "febrero", "marzo", "abril", "mayo", "junio",
   "julio", "agosto", "septiembre", "octubre", "noviembre", "diciembre"]

/-- `[0-9]{1,3}(?:[.,][0-9]{3})*(?:[.,][0-9]{2})?` -- the amount shape shared
by patterns 1, 2, 3 and 7. -/
def numCore : RE :=
  rcat [repn dig 1 3, star (rcat [sep, repn dig 3 3]), q01 (rcat [sep, repn dig 2 2])]

structure AmountPat where
  re : RE
  ci : Bool
  src : String
  confidence : ℚ
  descr : String

/-- `AMOUNT_PATTERNS` of the source, in order. The `src` field carries the
JS `pattern.source` text (with `\x7b`/`\x7d` escapes for the braces), which
`extractAmount` inspects with `String.prototype.includes`. -/
def AMOUNT_PATTERNS : List AmountPat :=
  [ -- /([$â‚¬Â£Â¥â‚¹Bs])\s*([0-9]{1,3}(?:[.,][0-9]{3})*(?:[.,][0-9]{2})?)/gi
    { re := rcat [RE.grp 1 (RE.cls false curCls), wsStar, RE.grp 2 numCore]
      ci := true
      src := "([" ++ curClsChars ++ "])\\s*([0-9]\x7b1,3\x7d(?:[.,][0-9]\x7b3\x7d)*(?:[.,][0-9]\x7b2\x7d)?)"
      confidence := 0.98
      descr := "Currency symbol + amount" }
  , -- /(?:total|suma|subtotal|monto|importe|precio|valor|total\s*:|suma\s*:)\s*([$...Bs]?)\s*(num)/gi
    { re := rcat
        [ ralt [lit "total", lit "suma", lit "subtotal", lit "monto", lit "importe",
                lit "precio", lit "valor", rcat [lit "total", wsStar, lit ":"],
                rcat [lit "suma", wsStar, lit ":"]]
        , wsStar, RE.grp 1 (q01 (RE.cls false curCls)), wsStar, RE.grp 2 numCore ]
      ci := true
      src := "(?:total|suma|subtotal|monto|importe|precio|valor|total\\s*:|suma\\s*:)\\s*([" ++
        curClsChars ++ "]?)\\s*([0-9]\x7b1,3\x7d(?:[.,][0-9]\x7b3\x7d)*(?:[.,][0-9]\x7b2\x7d)?)"
      confidence := 0.95
      descr := "Total/Suma pattern" }
  , -- /([0-9]{1,3}(?:[.,][0-9]{3})*(?:[.,][0-9]{2})?)\s*([$â‚¬Â£Â¥â‚¹Bs])/gi
    { re := rcat [RE.grp 1 numCore, wsStar, RE.grp 2 (RE.cls false curCls)]
      ci := true
      src := "([0-9]\x7b1,3\x7d(?:[.,][0-9]\x7b3\x7d)*(?:[.,][0-9]\x7b2\x7d)?)\\s*([" ++ curClsChars ++ "])"
      confidence := 0.9
      descr := "Amount + currency" }
  , -- /([0-9]+[.,][0-9]{2})\s*([$â‚¬Â£Â¥â‚¹Bs]?)/gi
    { re := rcat [RE.grp 1 (rcat [plus dig, sep, repn dig 2 2]), wsStar,
                  RE.grp 2 (q01 (RE.cls false curCls))]
      ci := true
      src := "([0-9]+[.,][0-9]\x7b2\x7d)\\s*([" ++ curClsChars ++ "]?)"
      confidence := 0.85
      descr := "Decimal amount" }
  , -- /\b([0-9]{2,4}(?:[.,][0-9]{3})*(?:[.,][0-9]{2})?)\b/g
    { re := rcat [RE.wb,
                  RE.grp 1 (rcat [repn dig 2 4, star (rcat [sep, repn dig 3 3]),
                                  q01 (rcat [sep, repn dig 2 2])]),
                  RE.wb]
      ci := false
      src := "\\b([0-9]\x7b2,4\x7d(?:[.,][0-9]\x7b3\x7d)*(?:[.,][0-9]\x7b2\x7d)?)\\b"
      confidence := 0.7
      descr := "Large number" }
  , -- /\b([0-9]+[.,][0-9]{2})\b/g
    { re := rcat [RE.wb, RE.grp 1 (rcat [plus dig, sep, repn dig 2 2]), RE.wb]
      ci := false
      src := "\\b([0-9]+[.,][0-9]\x7b2\x7d)\\b"
      confidence := 0.6
      descr := "Decimal number" }
  , -- /\b([0-9]{1,3}(?:[.,][0-9]{3})*(?:[.,][0-9]{2})?)\b/g
    { re := rcat [RE.wb, RE.grp 1 numCore, RE.wb]
      ci := false
      src := "\\b([0-9]\x7b1,3\x7d(?:[.,][0-9]\x7b3\x7d)*(?:[.,][0-9]\x7b2\x7d)?)\\b"
      confidence := 0.4
      descr := "Simple amount" }
  ]

structure DatePat where
  re : RE
  ci : Bool
  src : String

/-- `[\/\-]` -/
def slashDash : RE := RE.cls false (cc "/-")

/-- `DATE_PATTERNS` of the source, in order. -/
def DATE_PATTERNS : List DatePat :=
  [ -- /\b(\d{1,2})[\/\-](\d{1,2})[\/\-](\d{4})\b/g
    { re := rcat [RE.wb, RE.grp 1 (repn dig 1 2), slashDash, RE.grp 2 (repn dig 1 2),
                  slashDash, RE.grp 3 (repn dig 4 4), RE.wb]
      ci := false
      src := "\\b(\\d\x7b1,2\x7d)[\\/\\-](\\d\x7b1,2\x7d)[\\/\\-](\\d\x7b4\x7d)\\b" }
  , -- /\b(\d{4})[\/\-](\d{1,2})[\/\-](\d{1,2})\b/g
    { re := rcat [RE.wb, RE.grp 1 (repn dig 4 4), slashDash, RE.grp 2 (repn dig 1 2),
                  slashDash, RE.grp 3 (repn dig 1 2), RE.wb]
      ci := false
      src := "\\b(\\d\x7b4\x7d)[\\/\\-](\\d\x7b1,2\x7d)[\\/\\-](\\d\x7b1,2\x7d)\\b" }
  , -- /\b(\d{1,2})\s+(enero|...|december)\s+(\d{4})\b/gi
    { re := rcat [RE.wb, RE.grp 1 (repn dig 1 2), wsPlus,
                  RE.grp 2 (ralt ((MONTH_NAMES_es ++ MONTH_NAMES_en).map lit)),
                  wsPlus, RE.grp 3 (repn dig 4 4), RE.wb]
      ci := true
      src := "\\b(\\d\x7b1,2\x7d)\\s+(enero|febrero|marzo|abril|mayo|junio|julio|agosto|septiembre|octubre|noviembre|diciembre|january|february|march|april|may|june|july|august|september|october|november|december)\\s+(\\d\x7b4\x7d)\\b" }
  ]

/-! ### `normalizeAmount` (helper of the source file) -/

/-- `/[$â‚¬Â£Â¥â‚¹Bs]/g` used by `normalizeAmount` to strip currency marks. -/
def curStripRe : RE := RE.cls false curCls

/-- `/[^\d.,]/g` -/
def nonNumRe : RE := RE.cls true (dAtom :: cc ".,")

/-- `/[^\d]/g` -/
def nonDigitRe : RE := RE.cls true [dAtom]

/-- `normalizeAmount(amountStr)` of the source: strip currency marks and
non-numeric residue, split on dots/commas, then decide which segments are
thousands groups and which (a trailing segment of at most two characters)
is the decimal fraction. `none` models `null`. The `try`/`catch` wrapper of
the source is not represented: no operation in the body throws. -/
def normalizeAmount (amountStr : List Char) : Option ℚ :=
  if amountStr.isEmpty || (jsTrimL amountStr).length == 0 then none
  else
    let cleaned := jsTrimL (replaceAll false curStripRe [] amountStr)
    let cleaned := replaceAll false nonNumRe [] cleaned
    if cleaned.length == 0 then none
    else
      let parts := splitCls (cc ".,") cleaned
      match parts with
      | [onlyPart] =>
        (jsParseInt onlyPart).map (fun n => (n : ℚ))
      | [leftPart, rightPart] =>
        if rightPart.length ≤ 2 then
          let integerPart := replaceAll false nonDigitRe [] leftPart
          jsParseFloat (integerPart ++ '.' :: rightPart)
        else
          jsParseFloat (leftPart ++ rightPart)
      | [thousandsPart, hundredsPart, decimalPart] =>
        if decimalPart.length ≤ 2 then
          jsParseFloat (thousandsPart ++ hundredsPart ++ '.' :: decimalPart)
        else
          jsParseFloat (thousandsPart ++ hundredsPart ++ decimalPart)
      | _ =>
        let lastPart := (parts.getLastD [])
        if lastPart.length ≤ 2 then
          jsParseFloat ((parts.dropLast.foldr (· ++ ·) []) ++ '.' :: lastPart)
        else
          jsParseFloat (parts.foldr (· ++ ·) [])

/-! ### `extractAmount` -/

/-- `x || y` on JS strings (empty or absent on the left selects the right). -/
def jsOrStr (a b : List Char) : List Char := if a.isEmpty then b else a

/-- The dynamically built `new RegExp('([' + CURRENCY_SYMBOLS.join('') + ']+)', 'i')`
of `extractAmount`. -/
def currencyGroupRe : RE :=
  RE.grp 1 (plus (RE.cls false (cc (String.join CURRENCY_SYMBOLS))))

/-- The literal text `'\$â‚¬Â£Â¥â‚¹Bs.*\d'` that `extractAmount` looks for in
`pattern.source` (it occurs in no pattern, so that branch is dead). -/
def deadCheck1 : List Char := '\\' :: (curClsChars ++ ".*\\d").data

/-- The literal text `'\d.*\$â‚¬Â£Â¥â‚¹Bs'` of the second dead check. -/
def deadCheck2 : List Char := "\\d.*\\".data ++ curClsChars.data

structure AmountCand where
  amount : ℚ
  currency : List Char
  confidence : ℚ
  position : Nat
  pattern : String
deriving DecidableEq, Repr

/-- The `amountStr` / `currency` extraction of the `matches.forEach` body.
The two `pattern.source.includes` branches are transcribed as in the source;
they can never fire, because the probe strings escape `$` while the pattern
sources do not. -/
def amountStrCurrency (text : List Char) (pc : AmountPat) (m : RxMatch) :
    List Char × List Char :=
  if containsSub pc.src.data deadCheck1 then
    -- currency symbol first pattern
    (capOr text m 2, capOr text m 1)
  else if containsSub pc.src.data deadCheck2 then
    -- amount first pattern
    (capOr text m 1, capOr text m 2)
  else
    -- other patterns: amountStr = currency = match[1] || match[2] || ''
    let a0 := jsOrStr (capOr text m 1) (capOr text m 2)
    if CURRENCY_SYMBOLS.any (fun sym => containsSub a0 sym.data) then
      match matchFirst true currencyGroupRe a0 with
      | some cm =>
        let cur := capOr a0 cm 1
        (jsTrimL (removeFirstSub a0 cur), cur)
      | none => (a0, a0)
    else (a0, a0)

/-- The normalisation-and-scoring part of the `forEach` body, on the trimmed
`amountStr` / `currency` pair. -/
def scoreAmountCand (text : List Char) (pc : AmountPat) (m : RxMatch)
    (amountStr currency : List Char) : Option AmountCand :=
  match normalizeAmount amountStr with
  | none => none
  | some q =>
    if q > 0 then
      let confidence := pc.confidence
      -- if (currency) confidence = Math.min(confidence + 0.05, 1.0)
      let confidence := if !currency.isEmpty then min (confidence + 0.05) 1.0 else confidence
      let confidence := if q > 50 then confidence + 0.02 else confidence
      let confidence := if q > 100 then confidence + 0.03 else confidence
      let confidence := if q > 1000 then confidence + 0.02 else confidence
      let confidence := if q < 1 then confidence - 0.2 else confidence
      let confidence := if q < 0.1 then confidence - 0.3 else confidence
      -- const contextBefore/After (match.index || 0; Nat subtraction is the
      -- Math.max(0, ..) clamp)
      let contextBefore := toLowerStr (jsSubstring text (m.ms - 20) m.ms)
      let contextAfter := toLowerStr (jsSubstring text m.ms (m.ms + 20))
      let confidence :=
        if containsSub contextBefore "total".data || containsSub contextBefore "suma".data ||
           containsSub contextAfter "total".data || containsSub contextAfter "suma".data then
          confidence + 0.1
        else confidence
      some { amount := q
             currency := if currency.isEmpty then "USD".data else currency
             confidence := min confidence 1.0
             position := m.ms
             pattern := pc.descr }
    else none

/-- The whole `matches.forEach` body of `extractAmount`. -/
def amountCandOfMatch (text : List Char) (pc : AmountPat) (m : RxMatch) :
    Option AmountCand :=
  let pair := amountStrCurrency text pc m
  scoreAmountCand text pc m (jsTrimL pair.1) (jsTrimL pair.2)

/-- All candidates, in the order the source pushes them (patterns outer,
matches inner). -/
def amountCandidates (text : List Char) : List AmountCand :=
  AMOUNT_PATTERNS.foldl
    (fun acc pc => acc ++ (matchAll pc.ci pc.re text).filterMap (amountCandOfMatch text pc))
    []

/-- The comparator passed to `candidates.sort`. -/
def candCmpVal (a b : AmountCand) : ℚ :=
  if |a.confidence - b.confidence| < 0.05 then b.amount - a.amount
  else b.confidence - a.confidence

/-- Stable insertion respecting the comparator (on every candidate list a
theorem below evaluates, the comparator is a strict weak order, so any
comparison sort -- in particular the engine sort of V8 -- produces this
order; only the head of the result is ever observed). -/
def candInsert (x : AmountCand) : List AmountCand → List AmountCand
  | [] => [x]
  | y :: ys => if candCmpVal y x < 0 then y :: candInsert x ys else x :: y :: ys

def candSort : List AmountCand → List AmountCand
  | [] => []
  | x :: xs => candInsert x (candSort xs)

structure AmountResult where
  amount : Option ℚ
  currency : Option String
  confidence : ℚ
deriving DecidableEq, Repr

/-- `extractAmount(text)` of the source (the `candidates.length === 0` early
return is the `[]` case: sorting the empty list yields the empty list). -/
def extractAmount (text : String) : AmountResult :=
  match candSort (amountCandidates text.data) with
  | [] => ⟨none, none, 0⟩
  | best :: _ => ⟨some best.amount, some (String.mk best.currency), best.confidence⟩

/-! ### `extractDate` -/

/-- `findMonthIndex` of the source. -/
def findMonthIndex (monthName : List Char) : Int :=
  let lowerMonth := toLowerStr monthName
  match MONTH_NAMES_es.findIdx? (fun mn => toLowerStr mn.data == lowerMonth) with
  | some i => (i : Int)
  | none =>
    match MONTH_NAMES_en.findIdx? (fun mn => toLowerStr mn.data == lowerMonth) with
    | some i => (i : Int)
    | none => -1

/-- Day count of a month as JS `new Date(year, month-1, day)` realises it
(proleptic Gregorian with the usual leap rule). -/
def daysInMonth (year month : Int) : Int :=
  if month == 1 || month == 3 || month == 5 || month == 7 || month == 8 ||
     month == 10 || month == 12 then 31
  else if month == 4 || month == 6 || month == 9 || month == 11 then 30
  else if (year % 4 == 0 && year % 100 != 0) || year % 400 == 0 then 29
  else 28

/-- `isValidDate` of the source: range checks, then the
`new Date(year, month-1, day)` round-trip, which succeeds exactly when the
day does not overflow the month (months 1..12 and years 1900..2100 cannot
roll over otherwise). -/
def isValidDate (year month day : Int) : Bool :=
  if year < 1900 || year > 2100 then false
  else if month < 1 || month > 12 then false
  else if day < 1 || day > 31 then false
  else day ≤ daysInMonth year month

/-- `isValidDate` on possibly-NaN arguments: a NaN year/month/day always
fails (`year < 1900` and `year > 2100` are both false for NaN, but the final
`Date` round-trip compares `NaN === NaN`, which is false). -/
def isValidDateOpt : Option Int → Option Int → Option Int → Bool
  | some y, some mo, some d => isValidDate y mo d
  | _, _, _ => false

def intToStr (n : Int) : List Char := (toString n).data

/-- The ISO string `${year}-${month.padStart(2,'0')}-${day.padStart(2,'0')}`. -/
def isoOf (year month day : Int) : List Char :=
  intToStr year ++ '-' :: (padStart2 (intToStr month) ++ '-' :: padStart2 (intToStr day))

/-- `a > b` with a possibly-NaN left operand (NaN comparisons are false). -/
def jsGtInt (a : Option Int) (b : Int) : Bool :=
  match a with
  | some v => v > b
  | none => false

def mkValidDate (y mo d : Option Int) : Option (List Char) :=
  match y, mo, d with
  | some a, some b, some c => if isValidDate a b c then some (isoOf a b c) else none
  | _, _, _ => none

/-- The `try` body of the match loop of `extractDate`. The first branch tests
`pattern.source.includes('\d{4}')`, which holds for all three entries of
`DATE_PATTERNS` (each contains a four-digit year), so the month-name and the
day-first/month-first branches below are dead code, exactly as in the
source. -/
def extractDateMatch (text : List Char) (pat : DatePat) (m : RxMatch) :
    Option (List Char) :=
  if containsSub pat.src.data "\\d\x7b4\x7d".data then
    -- YYYY-MM-DD format
    mkValidDate (jsParseInt (capOr text m 1)) (jsParseInt (capOr text m 2))
      (jsParseInt (capOr text m 3))
  else if containsSub pat.src.data "enero|febrero".data then
    -- DD Month YYYY or Month DD YYYY
    let monthName := toLowerStr (capOr text m 2)
    let monthIndex := findMonthIndex monthName
    if !(monthIndex == -1) then
      if "\\b(\\d\x7b1,2\x7d)".data.isPrefixOf pat.src.data then
        mkValidDate (jsParseInt (capOr text m 3)) (some (monthIndex + 1))
          (jsParseInt (capOr text m 1))
      else
        mkValidDate (jsParseInt (capOr text m 3)) (some (monthIndex + 1))
          (jsParseInt (capOr text m 2))
    else none
  else
    -- DD/MM/YYYY or MM/DD/YYYY with the first>12 heuristic
    let first := jsParseInt (capOr text m 1)
    let second := jsParseInt (capOr text m 2)
    let third := jsParseInt (capOr text m 3)
    if jsGtInt first 12 then mkValidDate third second first
    else mkValidDate third first second

structure DateResult where
  date : Option String
  confidence : ℚ
deriving DecidableEq, Repr

/-- `extractDate(text)` of the source: patterns in order, matches in order,
first valid date wins with confidence 0.9. -/
def extractDate (text : String) : DateResult :=
  match DATE_PATTERNS.findSome?
      (fun pat => (matchAll pat.ci pat.re text.data).findSome?
        (fun m => extractDateMatch text.data pat m)) with
  | some iso => ⟨some (String.mk iso), 0.9⟩
  | none => ⟨none, 0⟩

/-! ### `extractProvider` -/

structure ProvPat where
  re : RE
  ci : Bool
  confidence : ℚ

/-- `[a-zA-Z\s&]` -/
def provCls : List ClsAtom :=
  [ClsAtom.rng 'a' 'z', ClsAtom.rng 'A' 'Z', ClsAtom.space, ClsAtom.ch '&']

/-- `[A-Z]` / `[a-z]` -/
def clsAZ : RE := RE.cls false [ClsAtom.rng 'A' 'Z']

def clsaz : RE := RE.cls false [ClsAtom.rng 'a' 'z']

/-- `providerPatterns` of `extractProvider`, in order. The business-suffix
list contains the mojibake form of the cafe entry (the source stores it as
the characters `C a f U+00C3 U+00A9`). -/
def providerPatterns : List ProvPat :=
  [ -- /\b([A-Z][a-zA-Z\s&]+(?:Store|Shop|...|Farmacia))\b/g
    { re := rcat [RE.wb,
        RE.grp 1 (rcat [clsAZ, plus (RE.cls false provCls),
          ralt [lit "Store", lit "Shop", lit "Tienda", lit "Empresa", lit "Company",
                lit "Corp", lit "Inc", lit "Ltd", lit "S.A.", lit "S.L.",
                lit "Restaurant", lit "Caf\u00c3\u00a9", lit "Supermercado", lit "Farmacia"]]),
        RE.wb]
      ci := false
      confidence := 0.9 }
  , -- /(?:razÃ³n\s*social|business\s*name|company|proveedor|vendor)\s*:?\s*([A-Z][a-zA-Z\s&]{3,40})/gi
    { re := rcat
        [ ralt [rcat [lit "raz\u00c3\u00b3n", wsStar, lit "social"],
                rcat [lit "business", wsStar, lit "name"],
                lit "company", lit "proveedor", lit "vendor"]
        , wsStar, q01 (lit ":"), wsStar
        , RE.grp 1 (rcat [clsAZ, repn (RE.cls false provCls) 3 40]) ]
      ci := true
      confidence := 0.85 }
  , -- /\b([A-Z][a-zA-Z\s&]{3,30})\s*(?:receipt|factura|ticket|recibo|comprobante)/gi
    { re := rcat [RE.wb, RE.grp 1 (rcat [clsAZ, repn (RE.cls false provCls) 3 30]), wsStar,
        ralt [lit "receipt", lit "factura", lit "ticket", lit "recibo", lit "comprobante"]]
      ci := true
      confidence := 0.8 }
  , -- /\b([A-Z][a-z]+(?:\s+[A-Z][a-z]+){1,4})\b/g
    { re := rcat [RE.wb,
        RE.grp 1 (rcat [clsAZ, plus clsaz, repn (rcat [wsPlus, clsAZ, plus clsaz]) 1 4]),
        RE.wb]
      ci := false
      confidence := 0.6 }
  , -- /\b([A-Z][a-zA-Z\s&]{4,25})\s*(?:Av\.|Calle|Street|Avenue|Road)/gi
    { re := rcat [RE.wb, RE.grp 1 (rcat [clsAZ, repn (RE.cls false provCls) 4 25]), wsStar,
        ralt [lit "Av.", lit "Calle", lit "Street", lit "Avenue", lit "Road"]]
      ci := true
      confidence := 0.7 }
  ]

/-- The stop-word list of `extractProvider`. -/
def SKIP_WORDS : List String :=
  ["TOTAL", "SUBTOTAL", "IVA", "DESCUENTO", "PAGO", "FECHA", "HORA",
   "CANTIDAD", "PRECIO", "ITEM"]

/-- `/\d/` -/
def digitRe : RE := RE.cls false [ClsAtom.digit]

structure ProvBest where
  provider : List Char
  confidence : ℚ

/-- The filter-and-update part of the match loop of `extractProvider`, on
the cleaned provider text: the three rejection filters and the
best-confidence update (`confidence > (bestMatch?.confidence || 0)`). -/
def providerUpdate (conf : ℚ) (acc : Option ProvBest) (provider : List Char) :
    Option ProvBest :=
  if provider.length < 3 || provider.length > 50 then acc
  else if SKIP_WORDS.any (fun w => containsSub (toUpperStr provider) w.data) then acc
  else if reTest false digitRe provider && provider.length < 8 then acc
  else if conf > (match acc with | some b => b.confidence | none => 0) then
    some ⟨provider, conf⟩
  else acc

/-- The body of the match loop of `extractProvider`: trim and
whitespace-collapse `match[1]`, then filter and update. -/
def providerStep (text : List Char) (conf : ℚ) (acc : Option ProvBest) (m : RxMatch) :
    Option ProvBest :=
  let provider := jsTrimL (capOr text m 1)
  let provider := jsTrimL (replaceAll false wsPlus " ".data provider)
  providerUpdate conf acc provider

structure ProviderResult where
  provider : Option String
  confidence : ℚ
deriving DecidableEq, Repr

/-- `extractProvider(text)` of the source. -/
def extractProvider (text : String) : ProviderResult :=
  let best := providerPatterns.foldl
    (fun acc pp => (matchAll pp.ci pp.re text.data).foldl (providerStep text.data pp.confidence) acc)
    none
  match best with
  | some b => ⟨some (String.mk b.provider), b.confidence⟩
  | none => ⟨none, 0⟩

/-! ### `extractDescription` -/

structure DescPat where
  re : RE
  ci : Bool
  confidence : ℚ

/-- `[A-Za-z0-9\s\-,.()]` -/
def descCls1 : List ClsAtom :=
  [ClsAtom.rng 'A' 'Z', ClsAtom.rng 'a' 'z', ClsAtom.rng '0' '9', ClsAtom.space,
   ClsAtom.ch '-', ClsAtom.ch ',', ClsAtom.ch '.', ClsAtom.ch '(', ClsAtom.ch ')']

/-- `[A-Za-z0-9\s\-,.]` -/
def descCls2 : List ClsAtom :=
  [ClsAtom.rng 'A' 'Z', ClsAtom.rng 'a' 'z', ClsAtom.rng '0' '9', ClsAtom.space,
   ClsAtom.ch '-', ClsAtom.ch ',', ClsAtom.ch '.']

/-- `[A-Za-z]` -/
def clsAlpha : RE := RE.cls false [ClsAtom.rng 'A' 'Z', ClsAtom.rng 'a' 'z']

/-- `descriptionPatterns` of `extractDescription`, in order (the accented
label words carry their mojibake spelling from the source). -/
def descriptionPatterns : List DescPat :=
  [ -- /(?:concepto|description|descripciÃ³n|item|artÃ­culo|producto|servicio)\s*:?\s*([A-Za-z0-9\s\-,.()]{5,60})/gi
    { re := rcat
        [ ralt [lit "concepto", lit "description", lit "descripci\u00c3\u00b3n", lit "item",
                lit "art\u00c3\u00adculo", lit "producto", lit "servicio"]
        , wsStar, q01 (lit ":"), wsStar, RE.grp 1 (repn (RE.cls false descCls1) 5 60) ]
      ci := true
      confidence := 0.9 }
  , -- /\b(\d+)\s+([A-Za-z][A-Za-z0-9\s\-,.]{5,40})\s+[\d.,]+\s*[$â‚¬Â£Â¥â‚¹Bs]?/gi
    { re := rcat [RE.wb, RE.grp 1 (plus dig), wsPlus,
        RE.grp 2 (rcat [clsAlpha, repn (RE.cls false descCls2) 5 40]), wsPlus,
        plus (RE.cls false (ClsAtom.digit :: cc ".,")), wsStar, q01 (RE.cls false curCls)]
      ci := true
      confidence := 0.8 }
  , -- /\b([A-Za-z][A-Za-z0-9\s\-,.]{8,50})\b/g
    { re := rcat [RE.wb, RE.grp 1 (rcat [clsAlpha, repn (RE.cls false descCls2) 8 50]), RE.wb]
      ci := false
      confidence := 0.6 }
  ]

/-- The description stop-word list (no ITEM entry here). -/
def DESC_SKIP_WORDS : List String :=
  ["TOTAL", "SUBTOTAL", "IVA", "DESCUENTO", "PAGO", "FECHA", "HORA",
   "CANTIDAD", "PRECIO"]

/-- `/^[A-Z][a-z]+(?:\s+[A-Z][a-z]+){1,3}$/` -- the "looks like a proper
name" test of `extractDescription`. -/
def provLikeRe : RE :=
  rcat [RE.bos, clsAZ, plus clsaz, repn (rcat [wsPlus, clsAZ, plus clsaz]) 1 3, RE.eos]

/-- Truthiness of a JS string-or-absent value. -/
def jsTruthyL : Option (List Char) → Bool
  | none => false
  | some s => !s.isEmpty

/-- The body of the match loop of `extractDescription`: pick
`match[1]?.trim() || match[2]?.trim() || ''`, filter, boost, and keep the
strictly best candidate. -/
def descriptionStep (text : List Char) (provider : Option (List Char)) (conf : ℚ)
    (acc : Option (List Char) × ℚ) (m : RxMatch) : Option (List Char) × ℚ :=
  let description :=
    jsOrStr (jsTrimL (capOr text m 1)) (jsTrimL (capOr text m 2))
  if description.length < 5 || description.length > 100 then acc
  else
    let description := jsTrimL (replaceAll false wsPlus " ".data description)
    if reTest false provLikeRe description &&
       !containsSub (toLowerStr description) "compra".data then acc
    else if DESC_SKIP_WORDS.any (fun w => containsSub (toUpperStr description) w.data) then acc
    else if jsTruthyL provider &&
        containsSub (toLowerStr description)
          (toLowerStr ((provider.getD []))) then acc
    else
      let lower := toLowerStr description
      let adjusted :=
        if containsSub lower "compra".data || containsSub lower "purchase".data ||
           containsSub lower "producto".data || containsSub lower "servicio".data then
          conf + 0.1
        else conf
      if adjusted > acc.2 then (some description, adjusted) else acc

structure DescriptionResult where
  description : Option String
  confidence : ℚ
deriving DecidableEq, Repr

/-- The scan stage of `extractDescription`: the `bestDescription` /
`bestConfidence` pair after the two nested loops. -/
def descriptionScan (text : List Char) (prov : Option (List Char)) :
    Option (List Char) × ℚ :=
  descriptionPatterns.foldl
    (fun acc dp => (matchAll dp.ci dp.re text).foldl (descriptionStep text prov dp.confidence) acc)
    (none, 0)

/-- `extractDescription(text, provider)` of the source: scan, then the two
fallbacks (`"Compra en {provider}"` at 0.5 when a provider is truthy, else
`"Gasto registrado"` at 0.3). -/
def extractDescription (text : String) (provider : Option String) : DescriptionResult :=
  let prov : Option (List Char) := provider.map String.data
  let best := descriptionScan text.data prov
  if !(jsTruthyL best.1) && jsTruthyL prov then
    ⟨some (String.mk ("Compra en ".data ++ prov.getD [])), 0.5⟩
  else if !(jsTruthyL best.1) then
    ⟨some "Gasto registrado", 0.3⟩
  else
    ⟨best.1.map String.mk, best.2⟩

/-! ### `heuristicExtraction` -/

structure FieldConfidence where
  amount : ℚ
  date : ℚ
  provider : ℚ
  description : ℚ
deriving DecidableEq, Repr

/-- `ExtractedData` of the source (`confidence` always carries four scores). -/
structure ExtractedData where
  description : Option String
  provider : Option String
  amount : Option ℚ
  currency : Option String
  date : Option String
  confidence : FieldConfidence
deriving DecidableEq, Repr

/-- `ExtractionResult` of the source. -/
structure ExtractionResult where
  data : ExtractedData
  shouldUseLLM : Bool
  overallConfidence : ℚ
deriving DecidableEq, Repr

/-- Truthiness of `string | null`. -/
def jsTruthyStr : Option String → Bool
  | none => false
  | some s => !(s == "")

/-- Truthiness of `number | null` (0 is falsy). -/
def jsTruthyNum : Option ℚ → Bool
  | none => false
  | some q => !(q == 0)

/-- `heuristicExtraction(text)` of the source: run the four scanners, build
the weighted confidence (weights 0.4 / 0.3 / 0.2 / 0.1) and the escalation
flag `weighted < 0.6 || !amount || (!date && !provider)`. -/
def heuristicExtraction (text : String) : ExtractionResult :=
  let amountResult := extractAmount text
  let dateResult := extractDate text
  let providerResult := extractProvider text
  let descriptionResult := extractDescription text providerResult.provider
  let data : ExtractedData :=
    { description := descriptionResult.description
      provider := providerResult.provider
      amount := amountResult.amount
      currency := amountResult.currency
      date := dateResult.date
      confidence :=
        { amount := amountResult.confidence
          date := dateResult.confidence
          provider := providerResult.confidence
          description := descriptionResult.confidence } }
  let weightedConfidence :=
    data.confidence.amount * 0.4 + data.confidence.date * 0.3 +
    data.confidence.provider * 0.2 + data.confidence.description * 0.1
  let shouldUseLLM : Bool :=
    weightedConfidence < 0.6 || !jsTruthyNum data.amount ||
    (!jsTruthyStr data.date && !jsTruthyStr data.provider)
  ⟨data, shouldUseLLM, weightedConfidence⟩

/-! ### A parser for dynamically built regexes

`validateAndFixFields` executes `new RegExp(result.provider, 'gi')` on a
string that can come from an external AI reply, so the construction can throw
a `SyntaxError`. `parseJsRegex` models it: it parses the fragment of the JS
regex grammar exercised by this code base (literals, escapes, classes,
groups, alternation, greedy quantifiers, anchors); a string it cannot parse
is treated as invalid, which is what every failing input used in the
theorems below (such as the lone `(`) is under the real grammar as well. -/

/-- Escapes allowed inside a character class. -/
def classEsc (c : Char) : Option ClsAtom :=
  if c == 'd' then some ClsAtom.digit
  else if c == 's' then some ClsAtom.space
  else if c == 'w' then some ClsAtom.word
  else if c == 'n' then some (ClsAtom.ch '\n')
  else if c == 't' then some (ClsAtom.ch '\t')
  else if c == 'r' then some (ClsAtom.ch '\r')
  else if c == 'f' then some (ClsAtom.ch '\u000c')
  else if c == 'v' then some (ClsAtom.ch '\u000b')
  else if c == '0' then some (ClsAtom.ch '\u0000')
  else if isWordCharJS c then none
  else some (ClsAtom.ch c)

/-- Parse the items of a character class up to the closing bracket. -/
def parseClsItems : Nat → List Char → List ClsAtom → Option (List ClsAtom × List Char)
  | 0, _, _ => none
  | Nat.succ fuel, rest, acc =>
    match rest with
    | [] => none
    | ']' :: tl => some (acc.reverse, tl)
    | '\\' :: c :: tl =>
      match classEsc c with
      | some a => parseClsItems fuel tl (a :: acc)
      | none => none
    | a :: '-' :: b :: tl =>
      if b == ']' then some ((ClsAtom.ch '-' :: ClsAtom.ch a :: acc).reverse, tl)
      else if b == '\\' then none
      else if a ≤ b then parseClsItems fuel tl (ClsAtom.rng a b :: acc)
      else none
    | c :: tl => parseClsItems fuel tl (ClsAtom.ch c :: acc)

/-- Escapes at atom position. -/
def atomEsc (c : Char) : Option RE :=
  if c == 'd' then some (RE.cls false [ClsAtom.digit])
  else if c == 'D' then some (RE.cls true [ClsAtom.digit])
  else if c == 's' then some (RE.cls false [ClsAtom.space])
  else if c == 'S' then some (RE.cls true [ClsAtom.space])
  else if c == 'w' then some (RE.cls false [ClsAtom.word])
  else if c == 'W' then some (RE.cls true [ClsAtom.word])
  else if c == 'b' then some RE.wb
  else if c == 'n' then some (RE.cls false [ClsAtom.ch '\n'])
  else if c == 't' then some (RE.cls false [ClsAtom.ch '\t'])
  else if c == 'r' then some (RE.cls false [ClsAtom.ch '\r'])
  else if c == 'f' then some (RE.cls false [ClsAtom.ch '\u000c'])
  else if c == 'v' then some (RE.cls false [ClsAtom.ch '\u000b'])
  else if c == '0' then some (RE.cls false [ClsAtom.ch '\u0000'])
  else if isWordCharJS c then none
  else some (RE.cls false [ClsAtom.ch c])

/-- Parse `{m}`, `{m,}` or `{m,n}` after an atom. -/
def parseBraceQuant (rest : List Char) : Option (Nat × Option Nat × List Char) :=
  let ds1 := digitsPrefix rest
  if ds1.isEmpty then none
  else
    match rest.drop ds1.length with
    | '\x7d' :: tl => some (digitsToNat ds1, some (digitsToNat ds1), tl)
    | ',' :: tl2 =>
      let ds2 := digitsPrefix tl2
      match tl2.drop ds2.length with
      | '\x7d' :: tl =>
        if ds2.isEmpty then some (digitsToNat ds1, none, tl)
        else some (digitsToNat ds1, some (digitsToNat ds2), tl)
      | _ => none
    | _ => none

/-- Attach a quantifier to `a` if one follows (a trailing `?` -- a lazy
quantifier -- is outside the supported fragment). -/
def parseQuant (a : RE) (rest : List Char) : Option (RE × List Char) :=
  match rest with
  | '*' :: '?' :: _ => none
  | '+' :: '?' :: _ => none
  | '?' :: '?' :: _ => none
  | '*' :: tl => some (star a, tl)
  | '+' :: tl => some (plus a, tl)
  | '?' :: tl => some (q01 a, tl)
  | '\x7b' :: tl =>
    match parseBraceQuant tl with
    | some (_, _, '?' :: _) => none
    | some (lo, hi, tl2) => some (RE.rep a lo hi, tl2)
    | none => none
  | _ => some (a, rest)

/-- Parser modes (one structurally recursive function instead of a mutual
block, so that the kernel can evaluate it). -/
inductive PMode where
  | alt
  | seq

/-- Recursive-descent parser. In `seq` mode it parses one sequence (stopping
at `|`, `)` or the end); in `alt` mode, a `|`-separated list of sequences.
Returns the parsed expression, the rest of the input and the next free
capture-group number. -/
def parseM : Nat → PMode → List Char → Nat → Option (RE × List Char × Nat)
  | 0, _, _, _ => none
  | Nat.succ fuel, PMode.alt, rest, grp =>
    match parseM fuel PMode.seq rest grp with
    | none => none
    | some (a, rest2, grp2) =>
      match rest2 with
      | '|' :: tl =>
        match parseM fuel PMode.alt tl grp2 with
        | some (b, rest3, grp3) => some (RE.alt a b, rest3, grp3)
        | none => none
      | _ => some (a, rest2, grp2)
  | Nat.succ fuel, PMode.seq, rest, grp =>
    match rest with
    | [] => some (RE.eps, [], grp)
    | ')' :: _ => some (RE.eps, rest, grp)
    | '|' :: _ => some (RE.eps, rest, grp)
    | '^' :: tl =>
      match parseM fuel PMode.seq tl grp with
      | some (b, rest2, grp2) => some (RE.seq RE.bos b, rest2, grp2)
      | none => none
    | '$' :: tl =>
      match parseM fuel PMode.seq tl grp with
      | some (b, rest2, grp2) => some (RE.seq RE.eos b, rest2, grp2)
      | none => none
    | '(' :: tl =>
      let inner :=
        match tl with
        | '?' :: ':' :: tl2 =>
          match parseM fuel PMode.alt tl2 grp with
          | some (a, ')' :: rest2, grp2) => some (a, rest2, grp2)
          | _ => none
        | '?' :: _ => none
        | _ =>
          match parseM fuel PMode.alt tl (grp + 1) with
          | some (a, ')' :: rest2, grp2) => some (RE.grp grp a, rest2, grp2)
          | _ => none
      match inner with
      | none => none
      | some (a, rest2, grp2) =>
        match parseQuant a rest2 with
        | none => none
        | some (a2, rest3) =>
          match parseM fuel PMode.seq rest3 grp2 with
          | some (b, rest4, grp4) => some (RE.seq a2 b, rest4, grp4)
          | none => none
    | '[' :: tl =>
      let cls :=
        match tl with
        | '^' :: tl2 =>
          match parseClsItems (tl2.length + 1) tl2 [] with
          | some (atoms, rest2) => some (RE.cls true atoms, rest2)
          | none => none
        | _ =>
          match parseClsItems (tl.length + 1) tl [] with
          | some (atoms, rest2) => some (RE.cls false atoms, rest2)
          | none => none
      match cls with
      | none => none
      | some (a, rest2) =>
        match parseQuant a rest2 with
        | none => none
        | some (a2, rest3) =>
          match parseM fuel PMode.seq rest3 grp with
          | some (b, rest4, grp4) => some (RE.seq a2 b, rest4, grp4)
          | none => none
    | '\\' :: c :: tl =>
      match atomEsc c with
      | none => none
      | some a =>
        match parseQuant a tl with
        | none => none
        | some (a2, rest3) =>
          match parseM fuel PMode.seq rest3 grp with
          | some (b, rest4, grp4) => some (RE.seq a2 b, rest4, grp4)
          | none => none
    | '\\' :: [] => none
    | '*' :: _ => none
    | '+' :: _ => none
    | '?' :: _ => none
    | '.' :: tl =>
      -- `.` : any character except line terminators
      let a := RE.cls true
        [ClsAtom.ch '\n', ClsAtom.ch '\r', ClsAtom.ch '\u2028', ClsAtom.ch '\u2029']
      match parseQuant a tl with
      | none => none
      | some (a2, rest3) =>
        match parseM fuel PMode.seq rest3 grp with
        | some (b, rest4, grp4) => some (RE.seq a2 b, rest4, grp4)
        | none => none
    | c :: tl =>
      let a := RE.cls false [ClsAtom.ch c]
      match parseQuant a tl with
      | none => none
      | some (a2, rest3) =>
        match parseM fuel PMode.seq rest3 grp with
        | some (b, rest4, grp4) => some (RE.seq a2 b, rest4, grp4)
        | none => none

/-- `new RegExp(source, ...)`: parse, requiring the whole string to be
consumed; `none` models the thrown `SyntaxError`. -/
def parseJsRegex (source : List Char) : Option RE :=
  match parseM (4 * source.length + 8) PMode.alt source 1 with
  | some (re, [], _) => some re
  | _ => none

/-! ### `validateAndFixFields` (`src/app/api/upload-receipt/route.ts`)

The route file is plain UTF-8 (unlike the lib file), so its accented
characters and currency signs appear literally in its regexes. -/

/-- `/(\d+[.,]?\d*)/g` -- amount-like substrings of a description. -/
def vfAmountRe : RE := RE.grp 1 (rcat [plus dig, q01 sep, star dig])

/-- `/([A-ZÁÉÍÓÚÑ][a-záéíóúñ\s]+(?:ABC|XYZ|S\.A\.|S\.A|Corp|Inc|Ltd|Restaurant|Tienda|Supermercado|Farmacia))/i` -/
def vfProviderRe : RE :=
  RE.grp 1 (rcat
    [ RE.cls false [ClsAtom.rng 'A' 'Z', ClsAtom.ch 'Á', ClsAtom.ch 'É', ClsAtom.ch 'Í',
        ClsAtom.ch 'Ó', ClsAtom.ch 'Ú', ClsAtom.ch 'Ñ']
    , plus (RE.cls false [ClsAtom.rng 'a' 'z', ClsAtom.ch 'á', ClsAtom.ch 'é', ClsAtom.ch 'í',
        ClsAtom.ch 'ó', ClsAtom.ch 'ú', ClsAtom.ch 'ñ', ClsAtom.space])
    , ralt [lit "ABC", lit "XYZ", lit "S.A.", lit "S.A", lit "Corp", lit "Inc", lit "Ltd",
            lit "Restaurant", lit "Tienda", lit "Supermercado", lit "Farmacia"] ])

/-- `/(\d{1,2}[\/\-]\d{1,2}[\/\-]\d{2,4})/` -/
def vfDateRe : RE :=
  RE.grp 1 (rcat [repn dig 1 2, slashDash, repn dig 1 2, slashDash, repn dig 2 4])

/-- `/\$?\d+[.,]?\d*\s*(USD|EUR|Bs|€|£|¥)?/g` -- the amount scrubber. -/
def vfScrubAmountRe : RE :=
  rcat [q01 (lit "$"), plus dig, q01 sep, star dig, wsStar,
        q01 (RE.grp 1 (ralt [lit "USD", lit "EUR", lit "Bs", lit "€", lit "£", lit "¥"]))]

/-- `/\d{1,2}[\/\-]\d{1,2}[\/\-]\d{2,4}/g` -- the date scrubber. -/
def vfScrubDateRe : RE :=
  rcat [repn dig 1 2, slashDash, repn dig 1 2, slashDash, repn dig 2 4]

/-- `match.replace(',', '.')` -- first comma replaced by a dot. -/
def replaceFirstComma : List Char → List Char
  | [] => []
  | c :: tl => if c == ',' then '.' :: tl else c :: replaceFirstComma tl

/-- `Math.max(...)` over a non-empty list. -/
def maxListQ : List ℚ → ℚ
  | [] => 0
  | x :: xs => xs.foldl max x

/-- The first repair block of `validateAndFixFields`: when everything
collapsed into a long description and both provider and amount are absent,
re-derive amount (largest number-like substring), provider (first
business-suffix phrase) and date (first date-shaped substring, with the
first-number-over-12 day-first heuristic and `20`-prefixing of 2-digit
years) from the description, then truncate it to 100 characters. -/
def vfBlock1 (result : ExtractedData) : ExtractedData :=
  if jsTruthyStr result.description && (result.description.getD "").length > 50 &&
     !jsTruthyStr result.provider && !jsTruthyNum result.amount then
    let d := (result.description.getD "").data
    let amountMatch := (matchAll false vfAmountRe d).map (matchStr d)
    let result :=
      if amountMatch.isEmpty then result
      else
        -- every match starts with a digit, so parseFloat cannot yield NaN
        let amounts := amountMatch.map (fun ms => (jsParseFloat (replaceFirstComma ms)).getD 0)
        let maxAmount := maxListQ amounts
        if maxAmount > 0 then { result with amount := some maxAmount } else result
    let result :=
      match matchFirst true vfProviderRe d with
      | some m => { result with provider := some (String.mk (jsTrimL (capOr d m 1))) }
      | none => result
    let result :=
      match matchFirst false vfDateRe d with
      | some m =>
        let dateStr := capOr d m 1
        let parts := splitCls (cc "/-") dateStr
        if parts.length == 3 then
          let p0 := parts.getD 0 []
          let p1 := parts.getD 1 []
          let p2 := parts.getD 2 []
          let dmy :=
            if p2.length == 4 then
              if jsGtInt (jsParseInt p0) 12 then (p0, p1, p2) else (p1, p0, p2)
            else
              if jsGtInt (jsParseInt p0) 12 then (p0, p1, '2' :: '0' :: p2)
              else (p1, p0, '2' :: '0' :: p2)
          let iso := dmy.2.2 ++ '-' :: (padStart2 dmy.2.1 ++ '-' :: padStart2 dmy.1)
          { result with date := some (String.mk iso) }
        else result
      | none => result
    if jsTruthyStr result.description && (result.description.getD "").length > 100 then
      { result with description := some (String.mk ((result.description.getD "").data.take 100 ++ "...".data)) }
    else result
  else result

/-- The always-on scrub block of `validateAndFixFields`: strip amount-shaped
and date-shaped substrings from the description, strip the provider (through
a regex built dynamically from it -- the step that can throw), collapse
whitespace, and fall back to a default when what is left is shorter than 5
characters. -/
def vfBlock2 (result : ExtractedData) : Except String ExtractedData :=
  if jsTruthyStr result.description then
    let d := (result.description.getD "").data
    let d := replaceAll false vfScrubAmountRe [] d
    let d := replaceAll false vfScrubDateRe [] d
    let provStep : Except String (List Char) :=
      if jsTruthyStr result.provider then
        match parseJsRegex (result.provider.getD "").data with
        | some re => Except.ok (replaceAll true re [] d)
        | none => Except.error "SyntaxError: Invalid regular expression"
      else Except.ok d
    match provStep with
    | Except.error e => Except.error e
    | Except.ok d2 =>
      let d3 := jsTrimL (replaceAll false wsPlus " ".data d2)
      let d4 :=
        if d3.isEmpty || d3.length < 5 then
          (if jsTruthyStr result.provider then
            ("Compra en ".data ++ (result.provider.getD "").data)
          else "Compra general".data)
        else d3
      Except.ok { result with description := some (String.mk d4) }
  else Except.ok result

/-- `validateAndFixFields(result)` of the route: the collapse-repair block
followed by the scrub block; `Except.error` models the `SyntaxError` thrown
by `new RegExp(result.provider, 'gi')` on a provider that is not a valid
regex. -/
def validateAndFixFields (result : ExtractedData) : Except String ExtractedData :=
  vfBlock2 (vfBlock1 result)

deriving instance DecidableEq for Except


/-- No character of `l` is an ASCII digit. -/
def noDigit (l : List Char) : Prop := ∀ c ∈ l, ¬('0' ≤ c ∧ c ≤ '9')

instance noDigit.inst (l : List Char) : Decidable (noDigit l) :=
  List.decidableBAll _ l

/-- Structural model of collapsing whitespace runs to single blanks; the
flag records whether we are inside a run that has already emitted its
blank. -/
def wsReplT : Bool → List Char → List Char
  | _, [] => []
  | skip, c :: tl =>
    if jsIsSpace c then
      if skip then wsReplT true tl else ' ' :: wsReplT true tl
    else c :: wsReplT false tl

/-- The head, if any, is not whitespace. -/
def headNoSpace : List Char → Prop
  | [] => True
  | d :: _ => jsIsSpace d = false

/-- Every whitespace character is a single blank with a non-blank successor. -/
def wsIso : List Char → Prop
  | [] => True
  | c :: tl => (jsIsSpace c = true → c = ' ' ∧ headNoSpace tl) ∧ wsIso tl

/-- A concrete repaired-looking extraction result, input of the amended-C6
witness. -/
def vfIdemWitnessInput : ExtractedData :=
  { description := some "Pago de servicios varios", provider := none,
    amount := some 10, currency := none, date := none,
    confidence := { amount := 0.8, date := 0.8, provider := 0.8, description := 0.8 } }

/-! ## Invariants of the scanners -/

theorem scoreAmountCand_pos {text : List Char} {pc : AmountPat} {m : RxMatch}
    {s cur : List Char} {c : AmountCand}
    (h : scoreAmountCand text pc m s cur = some c) : 0 < c.amount := by
  unfold scoreAmountCand at h
  split at h
  · exact absurd h (by simp)
  · next q hq =>
    dsimp only at h
    split at h
    · cases h
      assumption
    · exact absurd h (by simp)

theorem amountCandOfMatch_pos {text : List Char} {pc : AmountPat} {m : RxMatch}
    {c : AmountCand} (h : amountCandOfMatch text pc m = some c) : 0 < c.amount :=
  scoreAmountCand_pos h

theorem mem_candInsert {x y : AmountCand} {l : List AmountCand}
    (h : x ∈ candInsert y l) : x = y ∨ x ∈ l := by
  induction l with
  | nil => simpa [candInsert] using h
  | cons z zs ih =>
    simp only [candInsert] at h
    by_cases hc : candCmpVal z y < 0
    · rw [if_pos hc] at h
      rcases List.mem_cons.mp h with h | h
      · exact Or.inr (by simp [h])
      · rcases ih h with h2 | h2
        · exact Or.inl h2
        · exact Or.inr (by simp [h2])
    · rw [if_neg hc] at h
      rcases List.mem_cons.mp h with h | h
      · exact Or.inl h
      · exact Or.inr h

theorem mem_candSort {x : AmountCand} {l : List AmountCand}
    (h : x ∈ candSort l) : x ∈ l := by
  induction l with
  | nil => simp [candSort] at h
  | cons z zs ih =>
    unfold candSort at h
    rcases mem_candInsert h with h | h
    · simp [h]
    · exact List.mem_cons_of_mem _ (ih h)

theorem mem_foldl_append {α β : Type} {f : β → List α} {l : List β} {acc : List α}
    {c : α} (h : c ∈ l.foldl (fun a pc => a ++ f pc) acc) :
    c ∈ acc ∨ ∃ pc ∈ l, c ∈ f pc := by
  induction l generalizing acc with
  | nil => exact Or.inl (by simpa using h)
  | cons z zs ih =>
    simp only [List.foldl_cons] at h
    rcases ih h with h | ⟨pc, hpc, hc⟩
    · rcases List.mem_append.mp h with h | h
      · exact Or.inl h
      · exact Or.inr ⟨z, by simp, h⟩
    · exact Or.inr ⟨pc, by simp [hpc], hc⟩

theorem amountCandidates_pos {text : List Char} {c : AmountCand}
    (h : c ∈ amountCandidates text) : 0 < c.amount := by
  unfold amountCandidates at h
  rcases mem_foldl_append h with h | ⟨pc, _, hc⟩
  · simp at h
  · rcases List.mem_filterMap.mp hc with ⟨m, _, hm⟩
    exact amountCandOfMatch_pos hm

theorem extractAmount_pos {text : String} {q : ℚ}
    (h : (extractAmount text).amount = some q) : 0 < q := by
  unfold extractAmount at h
  split at h
  · simp at h
  · next best rest hsort =>
    simp only [Option.some.injEq] at h
    subst h
    exact amountCandidates_pos (mem_candSort (hsort ▸ List.mem_cons_self best rest))

theorem mkValidDate_shape {y mo d : Option Int} {iso : List Char}
    (h : mkValidDate y mo d = some iso) : ∃ a b c, iso = isoOf a b c := by
  unfold mkValidDate at h
  split at h
  · split at h
    · cases h
      exact ⟨_, _, _, rfl⟩
    · exact absurd h (by simp)
  · exact absurd h (by simp)

theorem isoOf_ne_nil (a b c : Int) : isoOf a b c ≠ [] := by
  unfold isoOf
  intro h
  rcases List.append_eq_nil.mp h with ⟨-, h2⟩
  exact List.cons_ne_nil _ _ h2

theorem extractDateMatch_shape {text : List Char} {pat : DatePat} {m : RxMatch}
    {iso : List Char} (h : extractDateMatch text pat m = some iso) :
    ∃ a b c, iso = isoOf a b c := by
  unfold extractDateMatch at h
  dsimp only at h
  split at h
  · exact mkValidDate_shape h
  · split at h
    · split at h
      · split at h
        · exact mkValidDate_shape h
        · exact mkValidDate_shape h
      · exact absurd h (by simp)
    · split at h
      · exact mkValidDate_shape h
      · exact mkValidDate_shape h

theorem extractDate_ne_empty {text : String} {d : String}
    (h : (extractDate text).date = some d) : d ≠ "" := by
  unfold extractDate at h
  split at h
  · next iso hfind =>
    simp only [Option.some.injEq] at h
    subst h
    rcases List.exists_of_findSome?_eq_some hfind with ⟨pat, hmem, hpat⟩
    rcases List.exists_of_findSome?_eq_some hpat with ⟨m, hm, hiso⟩
    rcases extractDateMatch_shape hiso with ⟨a, b, c, rfl⟩
    intro hcon
    exact isoOf_ne_nil a b c (congrArg String.data hcon)
  · simp at h

theorem providerUpdate_inv {conf : ℚ} {acc : Option ProvBest} {provider : List Char}
    {b : ProvBest}
    (hacc : ∀ b0, acc = some b0 → 3 ≤ b0.provider.length)
    (h : providerUpdate conf acc provider = some b) : 3 ≤ b.provider.length := by
  unfold providerUpdate at h
  split at h
  · exact hacc b h
  · next hlen =>
    split at h
    · exact hacc b h
    · split at h
      · exact hacc b h
      · split at h
        · cases h
          simp only [Bool.or_eq_true, decide_eq_true_eq, not_or] at hlen
          dsimp only
          omega
        · exact hacc b h

theorem providerStep_inv {text : List Char} {conf : ℚ} {acc : Option ProvBest}
    {m : RxMatch} {b : ProvBest}
    (hacc : ∀ b0, acc = some b0 → 3 ≤ b0.provider.length)
    (h : providerStep text conf acc m = some b) : 3 ≤ b.provider.length :=
  providerUpdate_inv hacc h

theorem foldl_providerStep_inv {text : List Char} {conf : ℚ} {ms : List RxMatch}
    {acc : Option ProvBest} {b : ProvBest}
    (hacc : ∀ b0, acc = some b0 → 3 ≤ b0.provider.length)
    (h : ms.foldl (providerStep text conf) acc = some b) : 3 ≤ b.provider.length := by
  induction ms generalizing acc with
  | nil => exact hacc b h
  | cons m ms ih =>
    simp only [List.foldl_cons] at h
    exact ih (fun b0 hb0 => providerStep_inv hacc hb0) h

theorem extractProvider_len {text : String} {p : String}
    (h : (extractProvider text).provider = some p) : 3 ≤ p.length := by
  unfold extractProvider at h
  dsimp only at h
  split at h
  · next b hb =>
    simp only [Option.some.injEq] at h
    subst h
    have main : ∀ (pps : List ProvPat) (acc : Option ProvBest),
        (∀ b0, acc = some b0 → 3 ≤ b0.provider.length) →
        pps.foldl (fun acc pp =>
          (matchAll pp.ci pp.re text.data).foldl (providerStep text.data pp.confidence) acc) acc =
          some b → 3 ≤ b.provider.length := by
      intro pps
      induction pps with
      | nil =>
        intro acc hacc h
        exact hacc b h
      | cons pp pps ih =>
        intro acc hacc h
        simp only [List.foldl_cons] at h
        exact ih _ (fun b0 hb0 => foldl_providerStep_inv hacc hb0) h
    have hlen := main _ _ (by intro b0 hb0; cases hb0) hb
    simpa [String.length] using hlen
  · simp at h

theorem extractProvider_ne_empty {text : String} {p : String}
    (h : (extractProvider text).provider = some p) : p ≠ "" := by
  have hl := extractProvider_len h
  intro hcon
  rw [hcon] at hl
  simp at hl

/-! ## Bridging truthiness to presence -/

theorem jsTruthyNum_eq_false_iff {am : Option ℚ} (hpos : ∀ q, am = some q → q ≠ 0) :
    jsTruthyNum am = false ↔ am = none := by
  cases am with
  | none => simp [jsTruthyNum]
  | some q =>
    have := hpos q rfl
    simp [jsTruthyNum, this]

theorem jsTruthyStr_eq_false_iff {st : Option String} (hne : ∀ x, st = some x → x ≠ "") :
    jsTruthyStr st = false ↔ st = none := by
  cases st with
  | none => simp [jsTruthyStr]
  | some x =>
    have := hne x rfl
    simp [jsTruthyStr, this]

/-! ## Infrastructure for the repair-pass idempotence analysis -/


theorem mtch_zero {ci : Bool} {re : RE} {st : MSt} {k : MSt → Option MSt} :
    mtch ci 0 re st k = none := rfl

/-- Whenever a match succeeds, the continuation was called on a state that
lies forward of the start, within the input, and whose rest is the
corresponding suffix of the start's rest. -/
theorem mtch_k_state {ci : Bool} :
    ∀ {fuel : Nat} {re : RE} {st : MSt} {k : MSt → Option MSt} {r : MSt},
      mtch ci fuel re st k = some r →
      ∃ st2, st.pos ≤ st2.pos ∧ st2.pos - st.pos ≤ st.rest.length ∧
        st2.rest = st.rest.drop (st2.pos - st.pos) ∧ k st2 = some r := by
  intro fuel
  induction fuel with
  | zero => intro re st k r h; exact absurd h (by simp [mtch])
  | succ fuel ih =>
    intro re st k r h
    have seqCompose :
        ∀ {a b : RE} {st : MSt} {k : MSt → Option MSt} {r : MSt},
          mtch ci fuel a st (fun st2 => mtch ci fuel b st2 k) = some r →
          ∃ st2, st.pos ≤ st2.pos ∧ st2.pos - st.pos ≤ st.rest.length ∧
            st2.rest = st.rest.drop (st2.pos - st.pos) ∧ k st2 = some r := by
      intro a b st k r h
      rcases ih h with ⟨st2, h1, h2, h3, hk⟩
      rcases ih hk with ⟨st3, h4, h5, h6, hk3⟩
      refine ⟨st3, by omega, ?_, ?_, hk3⟩
      · rw [h3] at h5
        simp only [List.length_drop] at h5
        omega
      · rw [h6, h3, List.drop_drop]
        congr 1
        omega
    match re with
    | .eps => exact ⟨st, le_refl _, by simp, by simp, h⟩
    | .cls neg atoms =>
      obtain ⟨pos, rest, prev, caps⟩ := st
      simp only [mtch] at h
      match rest with
      | [] => exact absurd h (by simp)
      | c :: cs =>
        simp only at h
        split at h
        · refine ⟨⟨pos + 1, cs, some c, caps⟩, ?_, ?_, ?_, h⟩
          · dsimp only
            omega
          · dsimp only
            simp
          · dsimp only
            simp
        · exact absurd h (by simp)
    | .seq a b =>
      simp only [mtch] at h
      exact seqCompose h
    | .alt a b =>
      simp only [mtch] at h
      rcases ha : mtch ci fuel a st k with _ | v
      · rw [ha] at h
        simp only at h
        exact ih h
      · rw [ha] at h
        simp only at h
        cases h
        exact ih ha
    | .grp i a =>
      simp only [mtch] at h
      rcases ih h with ⟨st2, h1, h2, h3, hk⟩
      exact ⟨{ st2 with caps := (i, st.pos, st2.pos) :: st2.caps }, h1, h2, h3, hk⟩
    | .wb =>
      simp only [mtch] at h
      split at h
      · exact ⟨st, le_refl _, by simp, by simp, h⟩
      · exact absurd h (by simp)
    | .bos =>
      simp only [mtch] at h
      split at h
      · exact ⟨st, le_refl _, by simp, by simp, h⟩
      · exact absurd h (by simp)
    | .eos =>
      simp only [mtch] at h
      split at h
      · exact ⟨st, le_refl _, by simp, by simp, h⟩
      · exact absurd h (by simp)
    | .rep a lo hi =>
      have iterCase :
          ∀ {hi2 : Option Nat},
            mtch ci fuel a st (fun st2 =>
              if lo == 0 && st2.pos == st.pos then none
              else mtch ci fuel (.rep a (lo - 1) hi2) st2 k) = some r →
            ∃ st2, st.pos ≤ st2.pos ∧ st2.pos - st.pos ≤ st.rest.length ∧
              st2.rest = st.rest.drop (st2.pos - st.pos) ∧ k st2 = some r := by
        intro hi2 hit
        rcases ih hit with ⟨st2, h1, h2, h3, hcont⟩
        split at hcont
        · exact absurd hcont (by simp)
        · rcases ih hcont with ⟨st3, h4, h5, h6, hk3⟩
          refine ⟨st3, by omega, ?_, ?_, hk3⟩
          · rw [h3] at h5
            simp only [List.length_drop] at h5
            omega
          · rw [h6, h3, List.drop_drop]
            congr 1
            omega
      match hi with
      | some 0 =>
        simp only [mtch] at h
        exact ⟨st, le_refl _, by simp, by simp, h⟩
      | none =>
        simp only [mtch] at h
        match lo with
        | 0 =>
          simp only at h
          rcases hit : mtch ci fuel a st (fun st2 =>
              if 0 == 0 && st2.pos == st.pos then none
              else mtch ci fuel (.rep a (0 - 1) (decOpt none)) st2 k) with _ | v
          · rw [hit] at h
            simp only at h
            exact ⟨st, le_refl _, by simp, by simp, h⟩
          · rw [hit] at h
            simp only at h
            cases h
            exact iterCase hit
        | n + 1 =>
          simp only at h
          exact iterCase h
      | some (m + 1) =>
        simp only [mtch] at h
        match lo with
        | 0 =>
          simp only at h
          rcases hit : mtch ci fuel a st (fun st2 =>
              if 0 == 0 && st2.pos == st.pos then none
              else mtch ci fuel (.rep a (0 - 1) (decOpt (some (m + 1)))) st2 k) with _ | v
          · rw [hit] at h
            simp only at h
            exact ⟨st, le_refl _, by simp, by simp, h⟩
          · rw [hit] at h
            simp only at h
            cases h
            exact iterCase hit
        | n + 1 =>
          simp only at h
          exact iterCase h

/-! ### Digit-free strings are invisible to the two scrub regexes -/

theorem noDigit_mono {l l2 : List Char} (hsub : l2 ⊆ l) (h : noDigit l) : noDigit l2 :=
  fun c hc => h c (hsub hc)

theorem noDigit_drop {l : List Char} (n : Nat) (h : noDigit l) : noDigit (l.drop n) :=
  noDigit_mono (List.drop_subset n l) h

theorem clsMatch_dig_false {c : Char} (h : ¬('0' ≤ c ∧ c ≤ '9')) :
    clsMatch false false [dAtom] c = false := by
  simp only [clsMatch, dAtom, List.any_cons, List.any_nil, atomMatch, Bool.false_and,
    Bool.or_false, Bool.if_false_right, Bool.and_true, Bool.and_eq_false_iff,
    Bool.ite_eq_false_distrib, if_false]
  rw [if_neg (by simp)]
  rcases Decidable.em ('0' ≤ c) with hlo | hlo
  · right
    simp only [decide_eq_false_iff_not]
    exact fun hhi => h ⟨hlo, hhi⟩
  · left
    simp only [decide_eq_false_iff_not]
    exact hlo

theorem digFail {fuel : Nat} {st : MSt} {k : MSt → Option MSt}
    (h : noDigit st.rest) : mtch false fuel dig st k = none := by
  match fuel with
  | 0 => rfl
  | Nat.succ f =>
    simp only [dig, mtch]
    match hrest : st.rest with
    | [] => rfl
    | c :: cs =>
      dsimp only
      rw [clsMatch_dig_false (h c (by rw [hrest]; exact List.mem_cons_self c cs))]
      simp

theorem plusDigFail {fuel : Nat} {st : MSt} {k : MSt → Option MSt}
    (h : noDigit st.rest) : mtch false fuel (RE.rep dig 1 none) st k = none := by
  match fuel with
  | 0 => rfl
  | Nat.succ f =>
    simp only [mtch]
    rw [digFail h]

theorem rep12DigFail {fuel : Nat} {st : MSt} {k : MSt → Option MSt}
    (h : noDigit st.rest) : mtch false fuel (RE.rep dig 1 (some 2)) st k = none := by
  match fuel with
  | 0 => rfl
  | Nat.succ f =>
    simp only [mtch]
    rw [digFail h]

/-- If the continuation fails on every suffix state, the match fails. -/
theorem mtchKNone {ci : Bool} {fuel : Nat} {re : RE} {st : MSt} {k : MSt → Option MSt}
    (h : ∀ st2 : MSt, (∃ n, st2.rest = st.rest.drop n) → k st2 = none) :
    mtch ci fuel re st k = none := by
  rcases hm : mtch ci fuel re st k with _ | r
  · rfl
  · rcases mtch_k_state hm with ⟨st2, _, _, h3, hk⟩
    rw [h st2 ⟨st2.pos - st.pos, h3⟩] at hk
    exact absurd hk (by simp)

theorem scrubAmountFail {fuel : Nat} {st : MSt} {k : MSt → Option MSt}
    (h : noDigit st.rest) : mtch false fuel vfScrubAmountRe st k = none := by
  match fuel with
  | 0 => rfl
  | Nat.succ f =>
    have hre : vfScrubAmountRe = RE.seq (RE.rep (RE.cls false [ClsAtom.ch '$']) 0 (some 1))
        (RE.seq (RE.rep dig 1 none)
          (RE.seq (RE.rep sep 0 (some 1)) (RE.seq (RE.rep dig 0 none) (RE.seq wsStar
            (RE.rep (RE.grp 1 (ralt [lit "USD", lit "EUR", lit "Bs", lit "€", lit "£", lit "¥"]))
              0 (some 1)))))) := rfl
    rw [hre]
    simp only [mtch]
    apply mtchKNone
    intro st2 ⟨n, hn⟩
    have h2 : noDigit st2.rest := by rw [hn]; exact noDigit_drop n h
    match f with
    | 0 => rfl
    | Nat.succ g =>
      simp only [mtch]
      exact plusDigFail h2

theorem scrubDateFail {fuel : Nat} {st : MSt} {k : MSt → Option MSt}
    (h : noDigit st.rest) : mtch false fuel vfScrubDateRe st k = none := by
  match fuel with
  | 0 => rfl
  | Nat.succ f =>
    have hre : vfScrubDateRe = RE.seq (RE.rep dig 1 (some 2))
        (RE.seq slashDash (RE.seq (RE.rep dig 1 (some 2)) (RE.seq slashDash
          (RE.rep dig 2 (some 4))))) := rfl
    rw [hre]
    simp only [mtch]
    exact rep12DigFail h

theorem matchAtScrubAmountFail {pos : Nat} {rest : List Char} {prev : Option Char}
    (h : noDigit rest) : matchAt false vfScrubAmountRe pos rest prev = none := by
  simp only [matchAt]
  rw [scrubAmountFail h]

theorem matchAtScrubDateFail {pos : Nat} {rest : List Char} {prev : Option Char}
    (h : noDigit rest) : matchAt false vfScrubDateRe pos rest prev = none := by
  simp only [matchAt]
  rw [scrubDateFail h]

theorem execFromAuxFailOfMatchAtFail {ci : Bool} {re : RE}
    (hfail : ∀ pos rest prev, noDigit rest → matchAt ci re pos rest prev = none) :
    ∀ {fuel pos : Nat} {rest : List Char} {prev : Option Char},
      noDigit rest → execFromAux ci re fuel pos rest prev = none := by
  intro fuel
  induction fuel with
  | zero => intro pos rest prev h; rfl
  | succ f ih =>
    intro pos rest prev h
    simp only [execFromAux]
    rw [hfail pos rest prev h]
    match rest with
    | [] => rfl
    | c :: cs => exact ih (fun c2 hc2 => h c2 (List.mem_cons_of_mem c hc2))

theorem replaceAllIdOfMatchAtFail {ci : Bool} {re : RE} {repl l : List Char}
    (hfail : ∀ pos rest prev, noDigit rest → matchAt ci re pos rest prev = none)
    (h : noDigit l) : replaceAll ci re repl l = l := by
  show replaceAllAux ci re repl (Nat.succ (l.length + 1)) 0 l none = l
  simp only [replaceAllAux, execFrom]
  rw [execFromAuxFailOfMatchAtFail hfail h]

theorem scrubAmountIdOfNoDigit {l : List Char} (h : noDigit l) :
    replaceAll false vfScrubAmountRe [] l = l :=
  replaceAllIdOfMatchAtFail (fun _ _ _ => matchAtScrubAmountFail) h

theorem scrubDateIdOfNoDigit {l : List Char} (h : noDigit l) :
    replaceAll false vfScrubDateRe [] l = l :=
  replaceAllIdOfMatchAtFail (fun _ _ _ => matchAtScrubDateFail) h

/-! ### A digit always starts an amount-scrub match -/

theorem matchOrElseIsSome {o d : Option MSt} (hd : d.isSome) :
    (match o with | some r => some r | none => d).isSome := by
  cases o
  · exact hd
  · simp

theorem clsMatch_dig_true {c : Char} (h : '0' ≤ c ∧ c ≤ '9') :
    clsMatch false false [dAtom] c = true := by
  simp only [clsMatch, dAtom, List.any_cons, List.any_nil, atomMatch, Bool.false_and,
    Bool.or_false, if_neg (by simp : ¬false = true)]
  rw [Bool.and_eq_true]
  exact ⟨decide_eq_true h.1, decide_eq_true h.2⟩

/-- A repetition with minimum 0 succeeds whenever its continuation succeeds
at the current state (greedy iterations are tried first, but failure there
falls back to the continuation). -/
theorem rep0Succ {ci : Bool} {a : RE} {hi : Option Nat} {fuel : Nat} {st : MSt}
    {k : MSt → Option MSt} (hk : (k st).isSome) (hf : 1 ≤ fuel) :
    (mtch ci fuel (RE.rep a 0 hi) st k).isSome := by
  match fuel, hf with
  | Nat.succ f, _ =>
    simp only [mtch]
    match hi with
    | some 0 => exact hk
    | none => exact matchOrElseIsSome hk
    | some (m + 1) => exact matchOrElseIsSome hk

theorem tailSucc : ∀ {f : Nat} {st : MSt}, 5 ≤ f →
    (mtch false f (RE.seq (RE.rep sep 0 (some 1)) (RE.seq (RE.rep dig 0 none)
      (RE.seq wsStar (RE.rep
        (RE.grp 1 (ralt [lit "USD", lit "EUR", lit "Bs", lit "€", lit "£", lit "¥"]))
        0 (some 1))))) st some).isSome := by
  intro f st hf
  match f, hf with
  | Nat.succ f1, _ =>
    have hf1 : 4 ≤ f1 := by omega
    simp only [mtch]
    apply rep0Succ ?_ (by omega)
    show (mtch false f1 (RE.seq (RE.rep dig 0 none) (RE.seq wsStar (RE.rep
      (RE.grp 1 (ralt [lit "USD", lit "EUR", lit "Bs", lit "€", lit "£", lit "¥"]))
      0 (some 1)))) st some).isSome
    match f1, hf1 with
    | Nat.succ f2, _ =>
      have hf2 : 3 ≤ f2 := by omega
      simp only [mtch]
      apply rep0Succ ?_ (by omega)
      show (mtch false f2 (RE.seq wsStar (RE.rep
        (RE.grp 1 (ralt [lit "USD", lit "EUR", lit "Bs", lit "€", lit "£", lit "¥"]))
        0 (some 1))) st some).isSome
      match f2, hf2 with
      | Nat.succ f3, _ =>
        have hf3 : 2 ≤ f3 := by omega
        simp only [mtch, wsStar]
        apply rep0Succ ?_ (by omega)
        show (mtch false f3 (RE.rep
          (RE.grp 1 (ralt [lit "USD", lit "EUR", lit "Bs", lit "€", lit "£", lit "¥"]))
          0 (some 1)) st some).isSome
        exact rep0Succ (by simp) (by omega)

theorem mtchSeq {ci : Bool} {f : Nat} {a b : RE} {st : MSt} {k : MSt → Option MSt} :
    mtch ci (Nat.succ f) (RE.seq a b) st k =
      mtch ci f a st (fun st2 => mtch ci f b st2 k) := rfl

theorem mtchClsCons {ci neg : Bool} {f : Nat} {atoms : List ClsAtom} {st : MSt}
    {k : MSt → Option MSt} {c : Char} {cs : List Char} (hrest : st.rest = c :: cs) :
    mtch ci (Nat.succ f) (RE.cls neg atoms) st k =
      if clsMatch ci neg atoms c then k ⟨st.pos + 1, cs, some c, st.caps⟩ else none := by
  obtain ⟨pos, rest, prev, caps⟩ := st
  simp only at hrest
  subst hrest
  rfl

theorem mtchRep1None {ci : Bool} {f : Nat} {a : RE} {st : MSt} {k : MSt → Option MSt} :
    mtch ci (Nat.succ f) (RE.rep a 1 none) st k =
      mtch ci f a st (fun st2 => mtch ci f (RE.rep a 0 none) st2 k) := rfl

theorem mtchRep0None {ci : Bool} {f : Nat} {a : RE} {st : MSt} {k : MSt → Option MSt} :
    mtch ci (Nat.succ f) (RE.rep a 0 none) st k =
      (match mtch ci f a st (fun st2 =>
          if st2.pos == st.pos then none else mtch ci f (RE.rep a 0 none) st2 k) with
        | some r => some r
        | none => k st) := rfl

theorem mtchRep01 {ci : Bool} {f : Nat} {a : RE} {st : MSt} {k : MSt → Option MSt} :
    mtch ci (Nat.succ f) (RE.rep a 0 (some 1)) st k =
      (match mtch ci f a st (fun st2 =>
          if st2.pos == st.pos then none else mtch ci f (RE.rep a 0 (some 0)) st2 k) with
        | some r => some r
        | none => k st) := rfl

theorem clsDollarFail {fuel : Nat} {st : MSt} {k : MSt → Option MSt} {c : Char}
    {cs : List Char} (hrest : st.rest = c :: cs) (hlo : '0' ≤ c) :
    mtch false fuel (RE.cls false [ClsAtom.ch '$']) st k = none := by
  match fuel with
  | 0 => rfl
  | Nat.succ f =>
    rw [mtchClsCons hrest]
    have hcd : (clsMatch false false [ClsAtom.ch '$'] c) = false := by
      simp only [clsMatch, List.any_cons, List.any_nil, atomMatch, Bool.false_and,
        Bool.or_false, if_neg (by simp : ¬false = true)]
      rcases Decidable.em (c = '$') with rfl | hne
      · exact absurd hlo (by decide)
      · simp [hne]
    rw [hcd]
    simp

theorem scrubAmountSucc {f : Nat} {st : MSt} {c : Char} {cs : List Char}
    (hf : 9 ≤ f) (hrest : st.rest = c :: cs) (hdig : '0' ≤ c ∧ c ≤ '9') :
    (mtch false f vfScrubAmountRe st some).isSome := by
  have hre : vfScrubAmountRe = RE.seq (RE.rep (RE.cls false [ClsAtom.ch '$']) 0 (some 1))
      (RE.seq (RE.rep dig 1 none)
        (RE.seq (RE.rep sep 0 (some 1)) (RE.seq (RE.rep dig 0 none) (RE.seq wsStar
          (RE.rep (RE.grp 1 (ralt [lit "USD", lit "EUR", lit "Bs", lit "€", lit "£", lit "¥"]))
            0 (some 1)))))) := rfl
  rw [hre]
  match f, hf with
  | Nat.succ f1, _ =>
    have hf1 : 8 ≤ f1 := by omega
    rw [mtchSeq]
    match f1, hf1 with
    | Nat.succ f2, _ =>
      have hf2 : 7 ≤ f2 := by omega
      rw [mtchRep01, clsDollarFail hrest hdig.1]
      simp only
      rw [mtchSeq]
      match f2, hf2 with
      | Nat.succ f3, _ =>
        have hf3 : 6 ≤ f3 := by omega
        rw [mtchRep1None]
        match f3, hf3 with
        | Nat.succ f4, _ =>
          have hf4 : 5 ≤ f4 := by omega
          rw [show dig = RE.cls false [dAtom] from rfl, mtchClsCons hrest,
            clsMatch_dig_true hdig, if_pos rfl]
          apply rep0Succ ?_ (by omega)
          exact tailSucc (by omega)


theorem mtchClsNil {ci neg : Bool} {f : Nat} {atoms : List ClsAtom} {st : MSt}
    {k : MSt → Option MSt} (hrest : st.rest = []) :
    mtch ci (Nat.succ f) (RE.cls neg atoms) st k = none := by
  obtain ⟨pos, rest, prev, caps⟩ := st
  simp only at hrest
  subst hrest
  rfl

theorem mtchRepHi0 {ci : Bool} {f : Nat} {a : RE} {lo : Nat} {st : MSt}
    {k : MSt → Option MSt} :
    mtch ci (Nat.succ f) (RE.rep a lo (some 0)) st k = k st := rfl

theorem matchAtMs {ci : Bool} {re : RE} {pos : Nat} {rest : List Char}
    {prev : Option Char} {m : RxMatch}
    (h : matchAt ci re pos rest prev = some m) : m.ms = pos := by
  simp only [matchAt] at h
  rcases hm : mtch ci (reFuel re rest.length) re ⟨pos, rest, prev, []⟩ some with _ | st
  · rw [hm] at h
    exact absurd h (by simp)
  · rw [hm] at h
    simp only at h
    cases h
    rfl

/-- The amount-scrub pattern never matches the empty string: its mandatory
digit block consumes at least one character. -/
theorem plusDigTailStrict {fuel : Nat} {tail : RE} {st : MSt} {st' : MSt}
    (h : mtch false fuel (RE.seq (RE.rep dig 1 none) tail) st some = some st') :
    st.pos < st'.pos := by
  match fuel with
  | 0 => exact absurd h (by simp [mtch])
  | Nat.succ g =>
    rw [mtchSeq] at h
    match g with
    | 0 => exact absurd h (by simp [mtch])
    | Nat.succ g1 =>
      rw [mtchRep1None] at h
      match g1 with
      | 0 => exact absurd h (by simp [mtch])
      | Nat.succ g2 =>
        match hrest : st.rest with
        | [] =>
          rw [show dig = RE.cls false [dAtom] from rfl, mtchClsNil hrest] at h
          exact absurd h (by simp)
        | c :: cs =>
          rw [show dig = RE.cls false [dAtom] from rfl, mtchClsCons hrest] at h
          split at h
          · rcases mtch_k_state h with ⟨st2, h1, _, _, hk⟩
            rcases mtch_k_state hk with ⟨st3, h4, _, _, hk3⟩
            have : st3 = st' := by
              simpa using hk3
            subst this
            simp only at h1
            omega
          · exact absurd h (by simp)

theorem scrubAmountStrict {fuel : Nat} {st : MSt} {st' : MSt}
    (h : mtch false fuel vfScrubAmountRe st some = some st') :
    st.pos < st'.pos := by
  have hre : vfScrubAmountRe = RE.seq (RE.rep (RE.cls false [ClsAtom.ch '$']) 0 (some 1))
      (RE.seq (RE.rep dig 1 none)
        (RE.seq (RE.rep sep 0 (some 1)) (RE.seq (RE.rep dig 0 none) (RE.seq wsStar
          (RE.rep (RE.grp 1 (ralt [lit "USD", lit "EUR", lit "Bs", lit "€", lit "£", lit "¥"]))
            0 (some 1)))))) := rfl
  rw [hre] at h
  match fuel with
  | 0 => exact absurd h (by simp [mtch])
  | Nat.succ f1 =>
    rw [mtchSeq] at h
    match f1 with
    | 0 => exact absurd h (by simp [mtch])
    | Nat.succ f2 =>
      rw [mtchRep01] at h
      rcases hiter : mtch false f2 (RE.cls false [ClsAtom.ch '$']) st (fun st2 =>
          if st2.pos == st.pos then none
          else mtch false f2 (RE.rep (RE.cls false [ClsAtom.ch '$']) 0 (some 0)) st2
            (fun st3 => mtch false (Nat.succ f2) (RE.seq (RE.rep dig 1 none)
              (RE.seq (RE.rep sep 0 (some 1)) (RE.seq (RE.rep dig 0 none) (RE.seq wsStar
                (RE.rep (RE.grp 1
                  (ralt [lit "USD", lit "EUR", lit "Bs", lit "€", lit "£", lit "¥"]))
                  0 (some 1)))))) st3 some)) with _ | r
      · rw [hiter] at h
        simp only at h
        exact plusDigTailStrict h
      · rw [hiter] at h
        simp only at h
        cases h
        match f2 with
        | 0 => exact absurd hiter (by simp [mtch])
        | Nat.succ f5 =>
          match hrest : st.rest with
          | [] =>
            rw [mtchClsNil hrest] at hiter
            exact absurd hiter (by simp)
          | c :: cs =>
            rw [mtchClsCons hrest] at hiter
            split at hiter
            · simp only at hiter
              rw [if_neg (by simp)] at hiter
              match f5 with
              | 0 => exact absurd hiter (by simp [mtch])
              | Nat.succ f6 =>
                rw [mtchRepHi0] at hiter
                have h2 := plusDigTailStrict hiter
                dsimp only at h2
                omega
            · exact absurd hiter (by simp)

theorem matchAtScrubAmountSucc {pos : Nat} {rest : List Char} {prev : Option Char}
    {c : Char} {cs : List Char} (hrest : rest = c :: cs) (hdig : '0' ≤ c ∧ c ≤ '9') :
    (matchAt false vfScrubAmountRe pos rest prev).isSome := by
  have hfuel : 9 ≤ reFuel vfScrubAmountRe rest.length := by
    have hs : reSize vfScrubAmountRe = 36 ∨ 1 ≤ reSize vfScrubAmountRe := by
      right
      match h : reSize vfScrubAmountRe with
      | 0 => exact absurd h (by decide)
      | Nat.succ n => omega
    rcases hs with hs | hs
    · simp only [reFuel, hs]
      omega
    · simp only [reFuel]
      nlinarith
  simp only [matchAt]
  rcases hm : mtch false (reFuel vfScrubAmountRe rest.length) vfScrubAmountRe
      ⟨pos, rest, prev, []⟩ some with _ | st
  · have h2 := @scrubAmountSucc (reFuel vfScrubAmountRe rest.length)
      ⟨pos, rest, prev, []⟩ c cs hfuel hrest hdig
    rw [hm] at h2
    exact absurd h2 (by simp)
  · simp

theorem matchAtScrubAmountShape {pos : Nat} {rest : List Char} {prev : Option Char}
    {m : RxMatch} (h : matchAt false vfScrubAmountRe pos rest prev = some m) :
    m.ms = pos ∧ pos + 1 ≤ m.me ∧ m.me - pos ≤ rest.length := by
  simp only [matchAt] at h
  rcases hm : mtch false (reFuel vfScrubAmountRe rest.length) vfScrubAmountRe
      ⟨pos, rest, prev, []⟩ some with _ | st
  · rw [hm] at h
    exact absurd h (by simp)
  · rw [hm] at h
    simp only at h
    cases h
    have hstrict := scrubAmountStrict hm
    rcases mtch_k_state hm with ⟨st2, h1, h2, h3, hk⟩
    have h4 : st2 = st := by simpa using hk
    subst h4
    dsimp only at h1 h2 hstrict
    refine ⟨rfl, ?_, ?_⟩
    · dsimp only
      omega
    · dsimp only
      omega

theorem noDigit_nil : noDigit [] := by
  intro c hc
  exact absurd hc (by simp)

theorem noDigit_cons {c : Char} {l : List Char} (hc : ¬('0' ≤ c ∧ c ≤ '9'))
    (hl : noDigit l) : noDigit (c :: l) := by
  intro d hd
  rcases List.mem_cons.mp hd with rfl | hd
  · exact hc
  · exact hl d hd

theorem noDigit_append {a b : List Char} (ha : noDigit a) (hb : noDigit b) :
    noDigit (a ++ b) := by
  intro c hc
  rcases List.mem_append.mp hc with h | h
  · exact ha c h
  · exact hb c h

theorem noDigit_tail {c : Char} {l : List Char} (h : noDigit (c :: l)) : noDigit l :=
  fun d hd => h d (List.mem_cons_of_mem c hd)

/-- The scan loop returns the leftmost amount-scrub match: everything it
skipped over is digit-free. -/
theorem execScrubABefore :
    ∀ {f pos : Nat} {rest : List Char} {prev : Option Char} {m : RxMatch},
      execFromAux false vfScrubAmountRe f pos rest prev = some m →
      ∃ j, m.ms = pos + j ∧ j ≤ rest.length ∧ noDigit (rest.take j) ∧
        ∃ prev2, matchAt false vfScrubAmountRe (pos + j) (rest.drop j) prev2 = some m := by
  intro f
  induction f with
  | zero => intro pos rest prev m h; exact absurd h (by simp [execFromAux])
  | succ f ih =>
    intro pos rest prev m h
    simp only [execFromAux] at h
    rcases hma : matchAt false vfScrubAmountRe pos rest prev with _ | m0
    · rw [hma] at h
      match rest with
      | [] => exact absurd h (by simp)
      | c :: cs =>
        simp only at h
        rcases ih h with ⟨j1, hms, hle, hnd, prev2, hmat⟩
        have hcnd : ¬('0' ≤ c ∧ c ≤ '9') := by
          intro hdig
          have h2 := @matchAtScrubAmountSucc pos (c :: cs) prev c cs rfl hdig
          rw [hma] at h2
          exact absurd h2 (by simp)
        refine ⟨j1 + 1, by omega, by simp; omega, ?_, prev2, ?_⟩
        · simpa using noDigit_cons hcnd hnd
        · have : pos + (j1 + 1) = pos + 1 + j1 := by omega
          rw [this]
          simpa using hmat
    · rw [hma] at h
      simp only at h
      cases h
      have hms0 := matchAtMs hma
      exact ⟨0, by omega, by omega, noDigit_nil, prev, by simpa using hma⟩

theorem execScrubANoneNoDigit :
    ∀ {f pos : Nat} {rest : List Char} {prev : Option Char},
      rest.length < f → execFromAux false vfScrubAmountRe f pos rest prev = none →
      noDigit rest := by
  intro f
  induction f with
  | zero => intro pos rest prev hlen h; omega
  | succ f ih =>
    intro pos rest prev hlen h
    simp only [execFromAux] at h
    rcases hma : matchAt false vfScrubAmountRe pos rest prev with _ | m0
    · rw [hma] at h
      match rest with
      | [] => exact noDigit_nil
      | c :: cs =>
        simp only at h
        have hcnd : ¬('0' ≤ c ∧ c ≤ '9') := by
          intro hdig
          have h2 := @matchAtScrubAmountSucc pos (c :: cs) prev c cs rfl hdig
          rw [hma] at h2
          exact absurd h2 (by simp)
        have hlen2 : cs.length < f := by
          simp only [List.length_cons] at hlen
          omega
        exact noDigit_cons hcnd (ih hlen2 h)
    · rw [hma] at h
      exact absurd h (by simp)

theorem advanceSt_spec :
    ∀ {n pos : Nat} {rest : List Char} {prev : Option Char}, n ≤ rest.length →
      (advanceSt n (pos, rest, prev)).1 = pos + n ∧
      (advanceSt n (pos, rest, prev)).2.1 = rest.drop n := by
  intro n
  induction n with
  | zero => intro pos rest prev h; exact ⟨rfl, rfl⟩
  | succ n ih =>
    intro pos rest prev h
    match rest with
    | [] => simp at h
    | c :: cs =>
      simp only [advanceSt]
      have h2 := @ih (pos + 1) cs (some c) (by simpa using h)
      refine ⟨?_, ?_⟩
      · rw [h2.1]
        omega
      · rw [h2.2]
        simp

/-- Scrubbing amount-shaped substrings leaves a digit-free string. -/
theorem replaceAllANoDigit :
    ∀ {fuel pos : Nat} {rest : List Char} {prev : Option Char},
      rest.length < fuel →
      noDigit (replaceAllAux false vfScrubAmountRe [] fuel pos rest prev) := by
  intro fuel
  induction fuel with
  | zero => intro pos rest prev hlen; omega
  | succ f ih =>
    intro pos rest prev hlen
    simp only [replaceAllAux]
    rcases hex : execFrom false vfScrubAmountRe pos rest prev with _ | m
    · exact execScrubANoneNoDigit (show rest.length < rest.length + 1 by omega) hex
    · rcases execScrubABefore hex with ⟨j, hms, hle, hnd, prev2, hmat⟩
      rcases matchAtScrubAmountShape hmat with ⟨hms2, hme1, hme2⟩
      have hmepos : pos + j + 1 ≤ m.me ∧ m.me - pos ≤ rest.length := by
        rw [hms] at hms2
        constructor
        · omega
        · simp only [List.length_drop] at hme2
          omega
      have hneq : (m.me == m.ms) = false := by
        simp only [beq_eq_false_iff_ne, ne_eq]
        omega
      dsimp only
      rw [hneq]
      simp only [Bool.false_eq_true, if_false]
      have hadv := @advanceSt_spec (m.me - pos) pos rest prev (by omega)
      rw [hadv.1, hadv.2]
      have hrec : (rest.drop (m.me - pos)).length < f := by
        simp only [List.length_drop]
        omega
      refine noDigit_append (noDigit_append ?_ noDigit_nil) (ih hrec)
      rw [hms]
      have : pos + j - pos = j := by omega
      rw [this]
      exact hnd

/-! ### Whitespace collapsing: a structural model of `replace(/\s+/g, " ")` -/

theorem wsReplT_skip : ∀ l : List Char, wsReplT true l = wsReplT false (l.dropWhile jsIsSpace) := by
  intro l
  induction l with
  | nil => rfl
  | cons c tl ih =>
    rcases hsp : jsIsSpace c with _ | _
    · simp only [wsReplT, hsp, if_false, List.dropWhile_cons, Bool.false_eq_true]
    · simp only [wsReplT, hsp, if_true, List.dropWhile_cons, ih]

theorem dropWhile_eq_drop_takeWhile (p : Char → Bool) :
    ∀ l : List Char, l.dropWhile p = l.drop (l.takeWhile p).length := by
  intro l
  induction l with
  | nil => rfl
  | cons c tl ih =>
    rcases hsp : p c with _ | _
    · simp [List.dropWhile_cons, List.takeWhile_cons, hsp]
    · simp [List.dropWhile_cons, List.takeWhile_cons, hsp, ih]

theorem dropWhile_head_false {p : Char → Bool} :
    ∀ {l : List Char} {d : Char} {ds : List Char}, l.dropWhile p = d :: ds → p d = false := by
  intro l
  induction l with
  | nil => intro d ds h; exact absurd h (by simp)
  | cons c tl ih =>
    intro d ds h
    rcases hsp : p c with _ | _
    · rw [List.dropWhile_cons, hsp] at h
      simp only [Bool.false_eq_true, if_false] at h
      cases h
      exact hsp
    · rw [List.dropWhile_cons, hsp] at h
      simp only [if_true] at h
      exact ih h

theorem takeWhile_stop {p : Char → Bool} :
    ∀ {l : List Char}, (l.takeWhile p).length < l.length →
      ∃ d ds, l.drop (l.takeWhile p).length = d :: ds ∧ p d = false := by
  intro l
  induction l with
  | nil => intro h; simp at h
  | cons c tl ih =>
    intro h
    rcases hsp : p c with _ | _
    · exact ⟨c, tl, by simp [List.takeWhile_cons, hsp], hsp⟩
    · rw [List.takeWhile_cons, hsp] at h ⊢
      simp only [if_true, List.length_cons] at h ⊢
      have h2 : (tl.takeWhile p).length < tl.length := by omega
      rcases ih h2 with ⟨d, ds, hd, hp⟩
      exact ⟨d, ds, by simpa using hd, hp⟩

theorem wsReplT_spacefree : ∀ {l : List Char}, (∀ c ∈ l, jsIsSpace c = false) →
    wsReplT false l = l := by
  intro l
  induction l with
  | nil => intro h; rfl
  | cons c tl ih =>
    intro h
    have hc := h c (List.mem_cons_self c tl)
    simp only [wsReplT, hc, Bool.false_eq_true, if_false]
    rw [ih (fun d hd => h d (List.mem_cons_of_mem c hd))]

theorem wsIso_wsReplT : ∀ l : List Char,
    wsIso (wsReplT false l) ∧ headNoSpace (wsReplT true l) ∧ wsIso (wsReplT true l) := by
  intro l
  induction l with
  | nil => exact ⟨trivial, trivial, trivial⟩
  | cons c tl ih =>
    rcases hsp : jsIsSpace c with _ | _
    · have hhead : headNoSpace (c :: wsReplT false tl) := hsp
      simp only [wsReplT, hsp, Bool.false_eq_true, if_false]
      refine ⟨⟨by simp [hsp], ih.1⟩, hhead, by simp [hsp], ih.1⟩
    · simp only [wsReplT, hsp, if_true]
      have hhead2 : headNoSpace (wsReplT true tl) := ih.2.1
      refine ⟨⟨fun _ => ⟨rfl, hhead2⟩, ih.2.2⟩, ih.2.1, ih.2.2⟩

theorem wsReplT_id : ∀ {l : List Char}, wsIso l →
    wsReplT false l = l ∧ (headNoSpace l → wsReplT true l = l) := by
  intro l
  induction l with
  | nil => intro h; exact ⟨rfl, fun _ => rfl⟩
  | cons c tl ih =>
    intro h
    rcases h with ⟨hc, htl⟩
    have ihtl := ih htl
    constructor
    · rcases hsp : jsIsSpace c with _ | _
      · simp only [wsReplT, hsp, Bool.false_eq_true, if_false]
        rw [ihtl.1]
      · rcases hc hsp with ⟨rfl, hhead⟩
        simp only [wsReplT, hsp, if_true]
        rw [ihtl.2 hhead]
        simp
    · intro hhead
      have hsp : jsIsSpace c = false := hhead
      simp only [wsReplT, hsp, Bool.false_eq_true, if_false]
      rw [ihtl.1]

theorem wsIso_suffix : ∀ {a b : List Char}, wsIso (a ++ b) → wsIso b := by
  intro a
  induction a with
  | nil => intro b h; exact h
  | cons c a2 ih => intro b h; exact ih h.2

theorem wsIso_prefix : ∀ {a b : List Char}, wsIso (a ++ b) → wsIso a := by
  intro a
  induction a with
  | nil => intro b h; trivial
  | cons c a2 ih =>
    intro b h
    refine ⟨?_, ih h.2⟩
    intro hsp
    rcases h.1 hsp with ⟨rfl, hhead⟩
    refine ⟨rfl, ?_⟩
    match a2 with
    | [] => trivial
    | d :: ds => exact hhead

theorem wsIso_dropWhile {l : List Char} (h : wsIso l) : wsIso (l.dropWhile jsIsSpace) := by
  rw [dropWhile_eq_drop_takeWhile]
  have hsplit : l.takeWhile jsIsSpace ++ l.drop (l.takeWhile jsIsSpace).length = l := by
    rw [← dropWhile_eq_drop_takeWhile]
    exact List.takeWhile_append_dropWhile jsIsSpace l
  rw [← hsplit] at h
  exact wsIso_suffix h

theorem wsIso_trim {l : List Char} (h : wsIso l) : wsIso (jsTrimL l) := by
  have h1 : wsIso (l.dropWhile jsIsSpace) := wsIso_dropWhile h
  have h2 : ((l.dropWhile jsIsSpace).reverse.dropWhile jsIsSpace).reverse <+:
      l.dropWhile jsIsSpace := by
    have h3 : (l.dropWhile jsIsSpace).reverse.dropWhile jsIsSpace <:+
        (l.dropWhile jsIsSpace).reverse := List.dropWhile_suffix jsIsSpace
    have h4 := (List.reverse_prefix).mpr h3
    rw [List.reverse_reverse] at h4
    exact h4
  rcases h2 with ⟨t, ht⟩
  rw [← ht] at h1
  exact wsIso_prefix h1

theorem dropWhile_id_of_head {p : Char → Bool} {l : List Char}
    (h : ∀ d ds, l = d :: ds → p d = false) : l.dropWhile p = l := by
  match l with
  | [] => rfl
  | d :: ds =>
    rw [List.dropWhile_cons, h d ds rfl]
    simp

theorem jsTrimL_eq_self {w : List Char} (h1 : w.dropWhile jsIsSpace = w)
    (h2 : w.reverse.dropWhile jsIsSpace = w.reverse) : jsTrimL w = w := by
  simp only [jsTrimL, h1, h2, List.reverse_reverse]

theorem jsTrimL_prefix_dropWhile (l : List Char) :
    jsTrimL l <+: l.dropWhile jsIsSpace := by
  have h3 : (l.dropWhile jsIsSpace).reverse.dropWhile jsIsSpace <:+
      (l.dropWhile jsIsSpace).reverse := List.dropWhile_suffix jsIsSpace
  have h4 := (List.reverse_prefix).mpr h3
  rw [List.reverse_reverse] at h4
  exact h4

theorem jsTrimL_idem (l : List Char) : jsTrimL (jsTrimL l) = jsTrimL l := by
  apply jsTrimL_eq_self
  · apply dropWhile_id_of_head
    intro d ds hd
    rcases jsTrimL_prefix_dropWhile l with ⟨t, ht⟩
    have hz : l.dropWhile jsIsSpace = d :: (ds ++ t) := by
      rw [← ht, hd]
      simp
    exact dropWhile_head_false hz
  · have hrev : (jsTrimL l).reverse =
        (l.dropWhile jsIsSpace).reverse.dropWhile jsIsSpace := by
      simp only [jsTrimL, List.reverse_reverse]
    rw [hrev]
    apply dropWhile_id_of_head
    intro d ds hd
    exact dropWhile_head_false hd

theorem mem_wsReplT : ∀ {l : List Char} {b : Bool} {c : Char},
    c ∈ wsReplT b l → c ∈ l ∨ c = ' ' := by
  intro l
  induction l with
  | nil => intro b c h; exact absurd h (by simp [wsReplT])
  | cons d tl ih =>
    intro b c h
    rcases hsp : jsIsSpace d with _ | _
    · rw [wsReplT, hsp] at h
      simp only [Bool.false_eq_true, if_false] at h
      rcases List.mem_cons.mp h with rfl | h2
      · exact Or.inl (List.mem_cons_self c tl)
      · rcases ih h2 with h3 | h3
        · exact Or.inl (List.mem_cons_of_mem d h3)
        · exact Or.inr h3
    · rw [wsReplT, hsp] at h
      simp only [if_true] at h
      match b with
      | true =>
        rcases ih h with h3 | h3
        · exact Or.inl (List.mem_cons_of_mem d h3)
        · exact Or.inr h3
      | false =>
        rcases List.mem_cons.mp h with rfl | h2
        · exact Or.inr rfl
        · rcases ih h2 with h3 | h3
          · exact Or.inl (List.mem_cons_of_mem d h3)
          · exact Or.inr h3

theorem mem_jsTrimL {l : List Char} {c : Char} (h : c ∈ jsTrimL l) : c ∈ l := by
  rcases jsTrimL_prefix_dropWhile l with ⟨t, ht⟩
  have h2 : c ∈ l.dropWhile jsIsSpace := by
    rw [← ht]
    exact List.mem_append_left t h
  exact (List.dropWhile_suffix jsIsSpace).subset h2

theorem noDigit_wsReplT {l : List Char} {b : Bool} (h : noDigit l) :
    noDigit (wsReplT b l) := by
  intro c hc
  rcases mem_wsReplT hc with h2 | rfl
  · exact h c h2
  · decide

theorem noDigit_jsTrimL {l : List Char} (h : noDigit l) : noDigit (jsTrimL l) :=
  fun c hc => h c (mem_jsTrimL hc)

/-! ### The matcher on the whitespace-run pattern -/

theorem clsMatch_space_eq (c : Char) :
    clsMatch false false [ClsAtom.space] c = jsIsSpace c := by
  simp [clsMatch, atomMatch]

theorem wsPlusFail {fuel : Nat} {st : MSt} {k : MSt → Option MSt}
    (hhead : ∀ c cs, st.rest = c :: cs → jsIsSpace c = false) :
    mtch false fuel wsPlus st k = none := by
  match fuel with
  | 0 => rfl
  | Nat.succ f =>
    rw [show wsPlus = RE.rep (RE.cls false [ClsAtom.space]) 1 none from rfl, mtchRep1None]
    match f with
    | 0 => rfl
    | Nat.succ g =>
      match hrest : st.rest with
      | [] => rw [mtchClsNil hrest]
      | c :: cs =>
        rw [mtchClsCons hrest, clsMatch_space_eq, hhead c cs hrest]
        simp

theorem wsStarRun : ∀ {rest : List Char} {f pos : Nat} {prev : Option Char}
    {caps : List (Nat × Nat × Nat)},
    (rest.takeWhile jsIsSpace).length + 2 ≤ f →
    ∃ st', mtch false f (RE.rep (RE.cls false [ClsAtom.space]) 0 none)
        ⟨pos, rest, prev, caps⟩ some = some st' ∧
      st'.pos = pos + (rest.takeWhile jsIsSpace).length := by
  intro rest
  induction rest with
  | nil =>
    intro f pos prev caps hf
    match f, hf with
    | Nat.succ f1, _ =>
      rw [mtchRep0None]
      match f1, (show 1 ≤ f1 by omega) with
      | Nat.succ g, _ =>
        rw [mtchClsNil rfl]
        exact ⟨⟨pos, [], prev, caps⟩, rfl, by simp⟩
  | cons c cs ih =>
    intro f pos prev caps hf
    rcases hsp : jsIsSpace c with _ | _
    · rw [List.takeWhile_cons, hsp] at hf ⊢
      simp only [Bool.false_eq_true, if_false, List.length_nil] at hf ⊢
      match f, hf with
      | Nat.succ f1, _ =>
        rw [mtchRep0None]
        match f1, (show 1 ≤ f1 by omega) with
        | Nat.succ g, _ =>
          rw [mtchClsCons rfl, clsMatch_space_eq, hsp]
          simp only [Bool.false_eq_true, if_false]
          exact ⟨⟨pos, c :: cs, prev, caps⟩, rfl, by simp⟩
    · rw [List.takeWhile_cons, hsp] at hf ⊢
      simp only [if_true, List.length_cons] at hf ⊢
      match f, hf with
      | Nat.succ f1, _ =>
        rw [mtchRep0None]
        match f1, (show (cs.takeWhile jsIsSpace).length + 2 ≤ f1 by omega) with
        | Nat.succ g, hg =>
          rw [mtchClsCons rfl, clsMatch_space_eq, hsp, if_pos rfl]
          have hne : ((⟨pos + 1, cs, some c, caps⟩ : MSt).pos == pos) = false := by
            simp
          simp only
          rw [hne]
          simp only [Bool.false_eq_true, if_false]
          rcases @ih (Nat.succ g) (pos + 1) (some c) caps hg with ⟨st', hst, hpos⟩
          refine ⟨st', ?_, ?_⟩
          · rw [hst]
          · rw [hpos]
            omega

theorem wsPlusRun {f pos : Nat} {rest : List Char} {prev : Option Char}
    {caps : List (Nat × Nat × Nat)} {c : Char} {cs : List Char}
    (hrest : rest = c :: cs) (hsp : jsIsSpace c = true)
    (hf : (rest.takeWhile jsIsSpace).length + 2 ≤ f) :
    ∃ st', mtch false f wsPlus ⟨pos, rest, prev, caps⟩ some = some st' ∧
      st'.pos = pos + (rest.takeWhile jsIsSpace).length := by
  subst hrest
  rw [List.takeWhile_cons, hsp] at hf ⊢
  simp only [if_true, List.length_cons] at hf ⊢
  match f, hf with
  | Nat.succ f1, _ =>
    rw [show wsPlus = RE.rep (RE.cls false [ClsAtom.space]) 1 none from rfl, mtchRep1None]
    match f1, (show (cs.takeWhile jsIsSpace).length + 2 ≤ f1 by omega) with
    | Nat.succ g, hg =>
      rw [mtchClsCons rfl, clsMatch_space_eq, hsp, if_pos rfl]
      rcases @wsStarRun cs (Nat.succ g) (pos + 1) (some c) caps hg with ⟨st', hst, hpos⟩
      refine ⟨st', hst, ?_⟩
      rw [hpos]
      omega

theorem matchAtWsNone {pos : Nat} {rest : List Char} {prev : Option Char}
    (hhead : ∀ c cs, rest = c :: cs → jsIsSpace c = false) :
    matchAt false wsPlus pos rest prev = none := by
  simp only [matchAt]
  rw [wsPlusFail hhead]

theorem matchAtWsSome {pos : Nat} {rest : List Char} {prev : Option Char}
    {c : Char} {cs : List Char} (hrest : rest = c :: cs) (hsp : jsIsSpace c = true) :
    ∃ m, matchAt false wsPlus pos rest prev = some m ∧ m.ms = pos ∧
      m.me = pos + (rest.takeWhile jsIsSpace).length := by
  have hfuel : (rest.takeWhile jsIsSpace).length + 2 ≤ reFuel wsPlus rest.length := by
    have h1 : (rest.takeWhile jsIsSpace).length ≤ rest.length :=
      (List.takeWhile_prefix jsIsSpace).length_le
    have h2 : reFuel wsPlus rest.length = 4 * (rest.length + 6) := rfl
    omega
  rcases @wsPlusRun (reFuel wsPlus rest.length) pos rest prev [] c cs hrest hsp hfuel
    with ⟨st', hst, hpos⟩
  refine ⟨⟨pos, st'.pos, st'.caps⟩, ?_, rfl, hpos⟩
  simp only [matchAt]
  rw [hst]

theorem execWsNone : ∀ {f pos : Nat} {rest : List Char} {prev : Option Char},
    (∀ c ∈ rest, jsIsSpace c = false) →
    execFromAux false wsPlus f pos rest prev = none := by
  intro f
  induction f with
  | zero => intro pos rest prev h; rfl
  | succ f ih =>
    intro pos rest prev h
    simp only [execFromAux]
    rw [matchAtWsNone (fun c cs hc => h c (by rw [hc]; exact List.mem_cons_self c cs))]
    match rest with
    | [] => rfl
    | c :: cs => exact ih (fun d hd => h d (List.mem_cons_of_mem c hd))

theorem execWsSome : ∀ {f pos : Nat} {rest : List Char} {prev : Option Char},
    rest.length < f →
    (rest.takeWhile (fun c => !jsIsSpace c)).length < rest.length →
    ∃ m, execFromAux false wsPlus f pos rest prev = some m ∧
      m.ms = pos + (rest.takeWhile (fun c => !jsIsSpace c)).length ∧
      m.me = m.ms +
        ((rest.drop (rest.takeWhile (fun c => !jsIsSpace c)).length).takeWhile
          jsIsSpace).length := by
  intro f
  induction f with
  | zero => intro pos rest prev hf hlt; omega
  | succ f ih =>
    intro pos rest prev hf hlt
    match rest with
    | [] => simp at hlt
    | c :: cs =>
      simp only [execFromAux]
      rcases hsp : jsIsSpace c with _ | _
      · rw [List.takeWhile_cons] at hlt ⊢
        simp only [hsp, Bool.not_false, if_true, List.length_cons] at hlt ⊢
        rw [matchAtWsNone (fun d ds hd => by
          injection hd with h1 h2
          rw [← h1]
          exact hsp)]
        have hlen2 : cs.length < f := by
          simp only [List.length_cons] at hf
          omega
        rcases @ih (pos + 1) cs (some c) hlen2 (by omega) with ⟨m, hex, hms, hme⟩
        refine ⟨m, hex, by rw [hms]; omega, ?_⟩
        rw [hme]
        simp
      · rcases @matchAtWsSome pos (c :: cs) prev c cs rfl hsp with ⟨m, hma, hms, hme⟩
        rw [hma]
        refine ⟨m, rfl, ?_, ?_⟩
        · rw [hms, List.takeWhile_cons]
          simp [hsp]
        · rw [hme, hms, List.takeWhile_cons]
          simp [hsp]

theorem wsReplTDecomp : ∀ {l : List Char} {i r : Nat},
    i = (l.takeWhile (fun c => !jsIsSpace c)).length → i < l.length →
    r = ((l.drop i).takeWhile jsIsSpace).length →
    wsReplT false l = (l.take i ++ [' ']) ++ wsReplT false (l.drop (i + r)) := by
  intro l
  induction l with
  | nil => intro i r hi hlt hr; simp at hlt
  | cons c tl ih =>
    intro i r hi hlt hr
    rcases hsp : jsIsSpace c with _ | _
    · rw [List.takeWhile_cons] at hi
      simp only [hsp, Bool.not_false, if_true, List.length_cons] at hi
      match i, hi with
      | Nat.succ i2, hi =>
        have hi2 : i2 = (tl.takeWhile (fun c => !jsIsSpace c)).length := by omega
        have hlt2 : i2 < tl.length := by
          simp only [List.length_cons] at hlt
          omega
        have hr2 : r = ((tl.drop i2).takeWhile jsIsSpace).length := by
          simpa using hr
        rw [show wsReplT false (c :: tl) = c :: wsReplT false tl by
          simp [wsReplT, hsp]]
        rw [ih hi2 hlt2 hr2]
        simp only [List.take_succ_cons, Nat.succ_add, List.drop_succ_cons,
          List.cons_append, List.append_assoc]
    · rw [List.takeWhile_cons] at hi
      simp only [hsp, Bool.not_true, Bool.false_eq_true, if_false, List.length_nil] at hi
      subst hi
      rw [List.drop_zero] at hr
      rw [List.takeWhile_cons, hsp] at hr
      simp only [if_true, List.length_cons] at hr
      match r, hr with
      | Nat.succ r2, hr =>
        have hr2 : r2 = (tl.takeWhile jsIsSpace).length := by omega
        rw [show wsReplT false (c :: tl) = ' ' :: wsReplT true tl by
          simp [wsReplT, hsp]]
        rw [wsReplT_skip tl, dropWhile_eq_drop_takeWhile]
        simp only [List.take_zero, List.nil_append, Nat.zero_add, List.drop_succ_cons]
        rw [← hr2]
        rfl

theorem replaceWsEq : ∀ {fuel pos : Nat} {rest : List Char} {prev : Option Char},
    rest.length < fuel →
    replaceAllAux false wsPlus [' '] fuel pos rest prev = wsReplT false rest := by
  intro fuel
  induction fuel with
  | zero => intro pos rest prev hf; omega
  | succ f ih =>
    intro pos rest prev hf
    simp only [replaceAllAux]
    rcases Decidable.em (∀ c ∈ rest, jsIsSpace c = false) with hall | hex
    · rw [show execFrom false wsPlus pos rest prev = none from execWsNone hall]
      rw [wsReplT_spacefree hall]
    · have hlt : (rest.takeWhile (fun c => !jsIsSpace c)).length < rest.length := by
        have hle : (rest.takeWhile (fun c => !jsIsSpace c)).length ≤ rest.length :=
          (List.takeWhile_prefix _).length_le
        rcases Nat.lt_or_ge (rest.takeWhile (fun c => !jsIsSpace c)).length rest.length
          with h | h
        · exact h
        · exfalso
          have heq : rest.takeWhile (fun c => !jsIsSpace c) = rest :=
            (List.takeWhile_prefix _).eq_of_length (by omega)
          apply hex
          intro c hc
          have h2 := List.mem_takeWhile_imp (l := rest) (by rw [heq]; exact hc)
          simpa using h2
      rcases @execWsSome (rest.length + 1) pos rest prev (by omega) hlt
        with ⟨m, hexec, hms, hme⟩
      rw [show execFrom false wsPlus pos rest prev =
        execFromAux false wsPlus (rest.length + 1) pos rest prev from rfl, hexec]
      have hrpos : 1 ≤ ((rest.drop (rest.takeWhile (fun c => !jsIsSpace c)).length).takeWhile
          jsIsSpace).length := by
        rcases takeWhile_stop hlt with ⟨d, ds, hd, hp⟩
        rw [hd, List.takeWhile_cons]
        simp only [Bool.not_eq_eq_eq_not, Bool.not_true] at hp
        rw [show jsIsSpace d = true from hp]
        simp
      have hrle : ((rest.drop (rest.takeWhile (fun c => !jsIsSpace c)).length).takeWhile
          jsIsSpace).length ≤ rest.length - (rest.takeWhile (fun c => !jsIsSpace c)).length := by
        have h2 : ((rest.drop (rest.takeWhile (fun c => !jsIsSpace c)).length).takeWhile
            jsIsSpace).length ≤
            (rest.drop (rest.takeWhile (fun c => !jsIsSpace c)).length).length :=
          (List.takeWhile_prefix jsIsSpace).length_le
        simpa using h2
      have hneq : (m.me == m.ms) = false := by
        simp only [beq_eq_false_iff_ne, ne_eq]
        omega
      dsimp only
      rw [hneq]
      simp only [Bool.false_eq_true, if_false]
      have hadv := @advanceSt_spec (m.me - pos) pos rest prev (by omega)
      rw [hadv.1, hadv.2]
      have hrec : (rest.drop (m.me - pos)).length < f := by
        simp only [List.length_drop]
        omega
      rw [ih hrec]
      have hmspos : m.ms - pos = (rest.takeWhile (fun c => !jsIsSpace c)).length := by
        omega
      have hmepos : m.me - pos = (rest.takeWhile (fun c => !jsIsSpace c)).length +
          ((rest.drop (rest.takeWhile (fun c => !jsIsSpace c)).length).takeWhile
            jsIsSpace).length := by
        omega
      rw [hmspos, hmepos]
      exact (wsReplTDecomp rfl hlt rfl).symm

/-! ### Assembling the scrub pipeline facts -/

theorem scrubAmountNoDigit (l : List Char) :
    noDigit (replaceAll false vfScrubAmountRe [] l) := by
  show noDigit (replaceAllAux false vfScrubAmountRe [] (l.length + 2) 0 l none)
  exact replaceAllANoDigit (by omega)

theorem replaceAllWsEq (l : List Char) :
    replaceAll false wsPlus " ".data l = wsReplT false l := by
  show replaceAllAux false wsPlus [' '] (l.length + 2) 0 l none = wsReplT false l
  exact replaceWsEq (by omega)

theorem collapseNoDigit {l : List Char} (h : noDigit l) :
    noDigit (jsTrimL (replaceAll false wsPlus " ".data l)) := by
  rw [replaceAllWsEq]
  exact noDigit_jsTrimL (noDigit_wsReplT h)

/-- The whitespace collapse-and-trim step is idempotent. -/
theorem collapseIdem (l : List Char) :
    jsTrimL (replaceAll false wsPlus " ".data (jsTrimL (replaceAll false wsPlus " ".data l))) =
      jsTrimL (replaceAll false wsPlus " ".data l) := by
  rw [replaceAllWsEq l, replaceAllWsEq (jsTrimL (wsReplT false l))]
  have h1 : wsIso (wsReplT false l) := (wsIso_wsReplT l).1
  have h2 : wsIso (jsTrimL (wsReplT false l)) := wsIso_trim h1
  rw [(wsReplT_id h2).1]
  exact jsTrimL_idem (wsReplT false l)

theorem jsTruthyStr_mk_cons (c : Char) (cs : List Char) :
    jsTruthyStr (some (String.mk (c :: cs))) = true := by
  simp only [jsTruthyStr]
  rw [Bool.not_eq_true', beq_eq_false_iff_ne]
  intro h
  have h2 : (String.mk (c :: cs)).data = String.data "" := by rw [h]
  simp at h2

/-- A state on which the scrub block is a no-op: digit-free description
that is already whitespace-collapsed and at least 5 characters long. -/
theorem vfBlock2_fixed {r : ExtractedData} {c : Char} {cs : List Char}
    (hprov : r.provider = none)
    (hdesc : r.description = some (String.mk (c :: cs)))
    (hnd : noDigit (c :: cs))
    (hcol : jsTrimL (replaceAll false wsPlus " ".data (c :: cs)) = c :: cs)
    (hlen : 5 ≤ (c :: cs).length) :
    vfBlock2 r = Except.ok r := by
  have htr : jsTruthyStr r.description = true := by
    rw [hdesc]
    exact jsTruthyStr_mk_cons c cs
  have hd : (r.description.getD "").data = c :: cs := by
    rw [hdesc]
    rfl
  simp only [vfBlock2, htr, if_pos, hd, hprov]
  rw [scrubAmountIdOfNoDigit hnd, scrubDateIdOfNoDigit hnd]
  simp only [jsTruthyStr, Bool.false_eq_true, if_false, hcol]
  have hguard : ((c :: cs).isEmpty || decide ((c :: cs).length < 5)) = false := by
    simp only [List.isEmpty_cons, Bool.false_or, decide_eq_false_iff_not]
    omega
  rw [hguard]
  simp only [Bool.false_eq_true, if_false]
  obtain ⟨desc, prov, amt, cur, date, conf⟩ := r
  simp only at hdesc hprov
  subst hdesc
  subst hprov
  rfl

/-- The first application of the scrub block on a provider-free state
produces a fixed point of the scrub block. -/
theorem vfBlock2_first {r : ExtractedData} (hprov : r.provider = none)
    (htr : jsTruthyStr r.description = true) :
    ∃ c cs, vfBlock2 r = Except.ok { r with description := some (String.mk (c :: cs)) } ∧
      noDigit (c :: cs) ∧
      jsTrimL (replaceAll false wsPlus " ".data (c :: cs)) = c :: cs ∧
      5 ≤ (c :: cs).length := by
  simp only [vfBlock2, htr, if_pos, hprov]
  simp only [jsTruthyStr, Bool.false_eq_true, if_false]
  set d := (r.description.getD "").data with hd
  set d1 := replaceAll false vfScrubAmountRe [] d with hd1
  have hnd1 : noDigit d1 := scrubAmountNoDigit d
  rw [scrubDateIdOfNoDigit hnd1]
  set d3 := jsTrimL (replaceAll false wsPlus [' '] d1) with hd3
  have hnd3 : noDigit d3 := by
    rw [hd3]
    exact collapseNoDigit hnd1
  have hcol3 : jsTrimL (replaceAll false wsPlus " ".data d3) = d3 := by
    rw [hd3]
    exact collapseIdem d1
  rcases hguard : (d3.isEmpty || decide (d3.length < 5)) with _ | _
  · simp only [Bool.false_eq_true, if_false]
    obtain ⟨c, cs, hcons⟩ : ∃ c cs, d3 = c :: cs := by
      match hx : d3 with
      | [] => simp at hguard
      | c :: cs => exact ⟨c, cs, rfl⟩
    have hlen : 5 ≤ d3.length := by
      rw [Bool.or_eq_false_iff] at hguard
      have h2 := hguard.2
      rw [decide_eq_false_iff_not] at h2
      omega
    refine ⟨c, cs, ?_, ?_, ?_, ?_⟩
    · rw [hcons]
    · rw [← hcons]
      exact hnd3
    · rw [← hcons]
      exact hcol3
    · rw [← hcons]
      exact hlen
  · simp only [if_true]
    refine ⟨'C', ['o', 'm', 'p', 'r', 'a', ' ', 'g', 'e', 'n', 'e', 'r', 'a', 'l'],
      rfl, by decide, by decide!, by decide⟩

/-! ## The claims -/

/-- C1: evaluation of the entry point on the spec's end-to-end example. For
the input text `"Supermercado ABC S.A. - Total: $150.00 - Fecha: 15/01/2025 -
Compra de alimentos"` the code returns amount 150 and the description
`"Compra de alimentos"` as the claim demands, but the provider is absent (the
`\b` after `S\.A\.` can never match before a space, and no other provider
pattern fits), the currency is the text `"150.00"` (the
`pattern.source.includes` branches that would route the symbol are dead, so
currency and amount both read `match[1] || match[2]`), the date is absent
(every `DATE_PATTERNS` source contains the text `\d{4}`, so the day-first
branch is dead and `15` is parsed as a year), and therefore
`shouldUseLLM = true` -- against the claimed provider "Supermercado ABC",
currency "$", date "2025-01-15" and `shouldUseLLM = false`. -/
theorem heuristicExtraction_supermercado_eval :
    heuristicExtraction
      "Supermercado ABC S.A. - Total: $150.00 - Fecha: 15/01/2025 - Compra de alimentos" =
    { data := { description := some "Compra de alimentos", provider := none,
                amount := some 150, currency := some "150.00", date := none,
                confidence := { amount := 1, date := 0, provider := 0, description := 0.7 } },
      shouldUseLLM := true, overallConfidence := 0.47 } := by
  decide!

/-- C2: the date scanner returns no date at all for `"15/01/2025"` and for
`"01/15/2025"`. The branch test `pattern.source.includes('\d{4}')` is true
for every entry of `DATE_PATTERNS` (each source contains a four-digit-year
subpattern), so the day-first / month-first disambiguation branch is dead
code: both inputs are read as year 15 resp. 1, fail `isValidDate`, and the
scanner falls through to absent -- against the claimed `"2025-01-15"`. -/
theorem extractDate_slash_inputs_eval :
    extractDate "15/01/2025" = { date := none, confidence := 0 } ∧
    extractDate "01/15/2025" = { date := none, confidence := 0 } := by
  constructor
  · decide!
  · decide!

/-- C3: evaluation of the amount scanner on `"Total: $1.234,56"`. The
labelled-total and symbol-prefixed patterns discard their matches (their
`match[1]` is the symbol `$`, which is stripped to an empty amount string),
so the decimal-amount pattern wins with the fragment `4,56` at boosted
confidence 1: the code returns amount 4.56 and currency `"4,56"` -- against
the claimed amount 1234.56 and currency "$" (the confidence, 1, does satisfy
the claimed bound of at least 0.95). -/
theorem extractAmount_total_eval :
    extractAmount "Total: $1.234,56" =
      { amount := some 4.56, currency := some "4,56", confidence := 1 } := by
  decide!

/-- C4: the number normaliser returns the mathematically equal value for the
three well-formed separator conventions: a trailing segment of at most two
characters is the decimal fraction, and longer or additional segments are
thousands groups that concatenate. -/
theorem normalizeAmount_separator_conventions :
    normalizeAmount "123.45".data = some 123.45 ∧
    normalizeAmount "1,234.56".data = some 1234.56 ∧
    normalizeAmount "1.234,56".data = some 1234.56 := by
  refine ⟨?_, ?_, ?_⟩
  · decide!
  · decide!
  · decide!

/-- C5: the escalation policy of the aggregator. `shouldUseLLM` is true
exactly when the weighted confidence (weights 0.4 / 0.3 / 0.2 / 0.1) is
below 0.6, or the amount is absent, or date and provider are both absent; in
particular it escalates whenever the amount is absent, and does not escalate
when all four fields are present with per-field confidences at least 0.8. -/
theorem heuristicExtraction_escalation_policy (text : String) :
    ((heuristicExtraction text).shouldUseLLM = true ↔
      ((heuristicExtraction text).data.confidence.amount * 0.4 +
        (heuristicExtraction text).data.confidence.date * 0.3 +
        (heuristicExtraction text).data.confidence.provider * 0.2 +
        (heuristicExtraction text).data.confidence.description * 0.1 < 0.6 ∨
       (heuristicExtraction text).data.amount = none ∨
       ((heuristicExtraction text).data.date = none ∧
        (heuristicExtraction text).data.provider = none))) ∧
    ((heuristicExtraction text).data.amount = none →
      (heuristicExtraction text).shouldUseLLM = true) ∧
    ((heuristicExtraction text).data.amount ≠ none →
     (heuristicExtraction text).data.date ≠ none →
     (heuristicExtraction text).data.provider ≠ none →
     0.8 ≤ (heuristicExtraction text).data.confidence.amount →
     0.8 ≤ (heuristicExtraction text).data.confidence.date →
     0.8 ≤ (heuristicExtraction text).data.confidence.provider →
     0.8 ≤ (heuristicExtraction text).data.confidence.description →
     (heuristicExtraction text).shouldUseLLM = false) := by
  have hposA : ∀ q, (extractAmount text).amount = some q → q ≠ 0 := by
    intro q hq
    exact ne_of_gt (extractAmount_pos hq)
  have hneD : ∀ x, (extractDate text).date = some x → x ≠ "" := by
    intro x hx
    exact extractDate_ne_empty hx
  have hneP : ∀ x, (extractProvider text).provider = some x → x ≠ "" := by
    intro x hx
    exact extractProvider_ne_empty hx
  dsimp only [heuristicExtraction]
  set a := extractAmount text with ha
  set dt := extractDate text with hdt
  set pv := extractProvider text with hpv
  set ds := extractDescription text pv.provider with hds
  set w : ℚ := a.confidence * 0.4 + dt.confidence * 0.3 + pv.confidence * 0.2 +
    ds.confidence * 0.1 with hw
  have bridgeA : jsTruthyNum a.amount = false ↔ a.amount = none :=
    jsTruthyNum_eq_false_iff hposA
  have bridgeD : jsTruthyStr dt.date = false ↔ dt.date = none :=
    jsTruthyStr_eq_false_iff hneD
  have bridgeP : jsTruthyStr pv.provider = false ↔ pv.provider = none :=
    jsTruthyStr_eq_false_iff hneP
  refine ⟨?_, ?_, ?_⟩
  · constructor
    · intro h
      rcases Bool.or_eq_true _ _ |>.mp h with h | h
      · rcases Bool.or_eq_true _ _ |>.mp h with h | h
        · exact Or.inl (by simpa using of_decide_eq_true h)
        · exact Or.inr (Or.inl (bridgeA.mp (by simpa using h)))
      · rcases Bool.and_eq_true _ _ |>.mp h with ⟨h1, h2⟩
        exact Or.inr (Or.inr ⟨bridgeD.mp (by simpa using h1), bridgeP.mp (by simpa using h2)⟩)
    · intro h
      rcases h with h | h | ⟨h1, h2⟩
      · exact Bool.or_eq_true _ _ |>.mpr (Or.inl (Bool.or_eq_true _ _ |>.mpr
          (Or.inl (decide_eq_true h))))
      · exact Bool.or_eq_true _ _ |>.mpr (Or.inl (Bool.or_eq_true _ _ |>.mpr
          (Or.inr (by simp [bridgeA.mpr h]))))
      · exact Bool.or_eq_true _ _ |>.mpr (Or.inr (Bool.and_eq_true _ _ |>.mpr
          ⟨by simp [bridgeD.mpr h1], by simp [bridgeP.mpr h2]⟩))
  · intro h
    exact Bool.or_eq_true _ _ |>.mpr (Or.inl (Bool.or_eq_true _ _ |>.mpr
      (Or.inr (by simp [bridgeA.mpr h]))))
  · intro hA hD hP hca hcd hcp hcs
    have hwge : ¬ (w < 0.6) := by
      rw [hw]
      intro hcon
      nlinarith [hca, hcd, hcp, hcs]
    have e1 : decide (w < 0.6) = false := decide_eq_false hwge
    have e2 : jsTruthyNum a.amount = true := by
      cases hx : a.amount with
      | none => exact absurd hx hA
      | some q => simp [jsTruthyNum, hposA q hx]
    have e3 : jsTruthyStr dt.date = true := by
      cases hx : dt.date with
      | none => exact absurd hx hD
      | some x => simp [jsTruthyStr, hneD x hx]
    simp [e1, e2, e3]

/-- Witness for C5: on a text where all four fields resolve with high
confidence the policy keeps the heuristic result, and on the empty text
(no amount) it escalates. -/
theorem heuristicExtraction_escalation_policy_witness :
    (heuristicExtraction
      "company: Moda Bella 2025-01-15 Total: 99.99 concepto: compra de viveres").shouldUseLLM
        = false ∧
    (heuristicExtraction "").shouldUseLLM = true := by
  have hw : heuristicExtraction
      "company: Moda Bella 2025-01-15 Total: 99.99 concepto: compra de viveres" =
    { data := { description := some "compra de viveres", provider := some "Moda Bella",
                amount := some 99.99, currency := some "99.99", date := some "2025-01-15",
                confidence := { amount := 1, date := 0.9, provider := 0.85, description := 1 } },
      shouldUseLLM := false, overallConfidence := 0.94 } := by
    decide!
  constructor
  · exact (heuristicExtraction_escalation_policy
      "company: Moda Bella 2025-01-15 Total: 99.99 concepto: compra de viveres").2.2
      (by rw [hw]; simp) (by rw [hw]; simp) (by rw [hw]; simp)
      (by rw [hw]; norm_num) (by rw [hw]; norm_num) (by rw [hw]; norm_num)
      (by rw [hw]; norm_num)
  · exact (heuristicExtraction_escalation_policy "").2.1 (by decide!)

/-- C8: the description is never absent: on every input the scanner either
keeps its best surviving candidate or falls back to
`"Compra en {provider}"` (confidence 0.5) when a provider was resolved and
`"Gasto registrado"` (confidence 0.3) otherwise. -/
theorem extractDescription_never_absent (text : String) (provider : Option String) :
    (extractDescription text provider).description ≠ none ∧
    (jsTruthyL (descriptionScan text.data (provider.map String.data)).1 = false →
      extractDescription text provider =
        (if jsTruthyStr provider then
          { description := some ("Compra en " ++ provider.getD ""), confidence := 0.5 }
        else { description := some "Gasto registrado", confidence := 0.3 })) := by
  constructor
  · unfold extractDescription
    dsimp only
    split
    · simp
    · split
      · simp
      · next h1 h2 =>
        simp only [Bool.and_eq_true, Bool.not_eq_true'] at h1
        rcases hb : (descriptionScan text.data (provider.map String.data)).1 with _ | bd
        · rw [Bool.not_eq_true] at h2
          rw [hb] at h2
          simp [jsTruthyL] at h2
        · simp [hb]
  · intro hscan
    unfold extractDescription
    dsimp only
    rw [hscan]
    cases provider with
    | none => simp [jsTruthyL, jsTruthyStr]
    | some p =>
      by_cases hpe : p = ""
      · subst hpe
        simp [jsTruthyL, jsTruthyStr]
      · have hdne : p.data ≠ [] := by
          intro hnil
          apply hpe
          cases p
          simp_all
        have h1 : jsTruthyL ((some p).map String.data) = true := by
          obtain ⟨c, cs, hd⟩ : ∃ c cs, p.data = c :: cs := by
            cases hd2 : p.data with
            | nil => exact absurd hd2 hdne
            | cons c cs => exact ⟨c, cs, rfl⟩
          simp [jsTruthyL, hd]
        have h2 : (p == "") = false := by
          simpa using hpe
        have h3 : jsTruthyStr (some p) = true := by
          simp [jsTruthyStr, h2]
        simp only [h1, h3, Bool.not_false, Bool.true_and, if_true]
        rfl

/-- Witness for C8: on the empty text nothing survives the scan, and the
fallback is `"Gasto registrado"` without a provider and `"Compra en Bar"`
with one. -/
theorem extractDescription_never_absent_witness :
    (extractDescription "" none).description ≠ none ∧
    extractDescription "" none = { description := some "Gasto registrado", confidence := 0.3 } ∧
    extractDescription "" (some "Bar") =
      { description := some ("Compra en " ++ "Bar"), confidence := 0.5 } := by
  refine ⟨(extractDescription_never_absent "" none).1, ?_, ?_⟩
  · have h := (extractDescription_never_absent "" none).2 (by decide)
    simpa using h
  · have h := (extractDescription_never_absent "" (some "Bar")).2 (by decide)
    simpa using h

/-- C9: `validateAndFixFields` is not total: with a truthy description and
the provider `"("` (as an external AI reply may produce) the code reaches
`new RegExp(result.provider, 'gi')`, which throws a `SyntaxError`; the
embedding returns the corresponding error. -/
theorem validateAndFixFields_throws_eval :
    validateAndFixFields
      { description := some "Compra de alimentos en la tienda", provider := some "(",
        amount := some 10, currency := none, date := none,
        confidence := { amount := 0.8, date := 0.8, provider := 0.8, description := 0.8 } } =
      Except.error "SyntaxError: Invalid regular expression" := by
  decide!

/-- C10: the currency of the amount scanner is present exactly when the
amount is: the winning candidate always carries a non-null currency (the
`currency || 'USD'` default), and with no candidate both fields are null;
`heuristicExtraction` copies both fields unchanged. -/
theorem extractAmount_currency_iff_amount (text : String) :
    (((extractAmount text).currency ≠ none) ↔ ((extractAmount text).amount ≠ none)) ∧
    (((heuristicExtraction text).data.currency ≠ none) ↔
      ((heuristicExtraction text).data.amount ≠ none)) := by
  have hmain : ((extractAmount text).currency ≠ none) ↔ ((extractAmount text).amount ≠ none) := by
    unfold extractAmount
    split
    · simp
    · simp
  exact ⟨hmain, by dsimp only [heuristicExtraction]; exact hmain⟩

/-- C6 counterexample: on the result with description `"x"`, provider
`"Bar"` and amount 10, the first repair produces the fallback description
`"Compra en Bar"`; the second repair then strips the provider name out of it
again (`"Compra en"`), so applying the pass twice differs from applying it
once. -/
theorem validateAndFixFields_not_idempotent :
    (validateAndFixFields
      { description := some "x", provider := some "Bar", amount := some 10,
        currency := none, date := none,
        confidence := { amount := 0.8, date := 0.8, provider := 0.8,
                        description := 0.8 } }).bind validateAndFixFields ≠
    validateAndFixFields
      { description := some "x", provider := some "Bar", amount := some 10,
        currency := none, date := none,
        confidence := { amount := 0.8, date := 0.8, provider := 0.8,
                        description := 0.8 } } := by
  decide!

/-- C6 (amended): the repair pass is idempotent on results whose provider is
absent and whose amount is present and non-zero -- the collapse-repair
trigger is then off and the scrub block reaches a fixed point after one
application. (The original unconditional claim is refuted by
`validateAndFixFields_not_idempotent`: a truthy provider is re-inserted into
the fallback description by the first pass and stripped again by the
second.) -/
theorem validateAndFixFields_idempotent_unaided (r : ExtractedData)
    (hprov : r.provider = none) (hamt : jsTruthyNum r.amount = true) :
    (validateAndFixFields r).bind validateAndFixFields = validateAndFixFields r := by
  have hb1 : vfBlock1 r = r := by
    simp [vfBlock1, hamt]
  have hmain : validateAndFixFields r = vfBlock2 r := by
    rw [validateAndFixFields, hb1]
  rcases htr : jsTruthyStr r.description with _ | _
  · have hok : vfBlock2 r = Except.ok r := by
      simp [vfBlock2, htr]
    rw [hmain, hok]
    show validateAndFixFields r = Except.ok r
    rw [hmain, hok]
  · rcases vfBlock2_first hprov htr with ⟨c, cs, hok, hnd, hcol, hlen⟩
    rw [hmain, hok]
    show validateAndFixFields { r with description := some (String.mk (c :: cs)) } =
      Except.ok { r with description := some (String.mk (c :: cs)) }
    have hamt1 : jsTruthyNum ({ r with
        description := some (String.mk (c :: cs)) } : ExtractedData).amount = true := hamt
    have hb1x : vfBlock1 { r with description := some (String.mk (c :: cs)) } =
        { r with description := some (String.mk (c :: cs)) } := by
      simp [vfBlock1, hamt1]
    rw [validateAndFixFields, hb1x]
    exact vfBlock2_fixed hprov rfl hnd hcol hlen

/-- Witness for the amended C6 theorem at a concrete repaired-looking value. -/
theorem validateAndFixFields_idempotent_unaided_witness :
    vfIdemWitnessInput.provider = none ∧
    jsTruthyNum vfIdemWitnessInput.amount = true ∧
    (validateAndFixFields vfIdemWitnessInput).bind validateAndFixFields =
      validateAndFixFields vfIdemWitnessInput :=
  ⟨rfl, by decide!,
    validateAndFixFields_idempotent_unaided vfIdemWitnessInput rfl (by decide!)⟩

end ReceiptVerify
